import Mathlib

/-!
# Verification of the prysm slasher span-chunk engine and the inclusion-list cache

This file gives a shallow embedding of two subsystems of the repository:

* the attestation slashing-detection engine (min/max span chunk slices:
  `Parameters`, `chunkDataAtEpoch`, `setChunkDataAtEpoch`, `minUpdate`,
  `maxUpdate`, `checkSlashableMin`, `checkSlashableMax`, `minStartEpoch`,
  `maxStartEpoch`, `minNextChunkStartEpoch`, `maxNextChunkStartEpoch`).
  The chunk implementation itself is not part of the source tree slice
  (only its tests in `beacon-chain/slasher/chunks_test.go` are), so these
  definitions are modelled from the specification's description of the
  algorithms and are pinned at every concrete data point the repository's
  tests provide.
* the `InclusionLists` cache of `beacon-chain/cache` (`ILState`,
  `InclusionLists.add`, `InclusionLists.get`, `InclusionLists.seenTwice`,
  `InclusionLists.delete`), translated directly from the Go source.

Machine integers (`uint64` epochs, `uint16` span distances) are modelled as
`Nat` with explicit `% 65536` truncation where the code narrows to 16 bits.
Go errors are modelled with `Except String`; Go `nil` slices inside the
cache entries are modelled with `Option`.
-/

set_option autoImplicit false

deriving instance DecidableEq for Except

namespace Prysm

/-! ## Parameters and indexing (modelled from the spec, §4.1)

`Modelled from the spec:` the `Parameters` value and the pure indexing
helpers `chunk_index`, `validator_offset`, cell offset
`validator_offset * chunk_size + (epoch mod chunk_size)`; the Go code for
these lives outside the provided source slice. -/

structure Parameters where
  chunkSize : Nat
  validatorChunkSize : Nat
  historyLength : Nat
deriving DecidableEq, Repr

/-- `chunk_index(epoch) = (epoch mod history_length) / chunk_size`. -/
def Parameters.chunkIndex (p : Parameters) (epoch : Nat) : Nat :=
  (epoch % p.historyLength) / p.chunkSize

/-- `validator_offset = validator mod validator_chunk_size`. -/
def Parameters.validatorOffset (p : Parameters) (validator : Nat) : Nat :=
  validator % p.validatorChunkSize

/-- Slot offset within a chunk: `validator_offset * chunk_size + (epoch mod chunk_size)`. -/
def Parameters.cellIndex (p : Parameters) (validator epoch : Nat) : Nat :=
  p.validatorOffset validator * p.chunkSize + epoch % p.chunkSize

/-- First epoch of a chunk index. -/
def Parameters.firstEpoch (p : Parameters) (chunkIdx : Nat) : Nat :=
  chunkIdx * p.chunkSize

/-- Last epoch of a chunk index. -/
def Parameters.lastEpoch (p : Parameters) (chunkIdx : Nat) : Nat :=
  p.firstEpoch chunkIdx + p.chunkSize - 1

/-- Default parameters of the detection service (chunk size 16, validator
chunk size 256, history length 4096); only `historyLength` is observable in
the tests that use them. -/
def defaultParams : Parameters := ⟨16, 256, 4096⟩

/-- Neutral element of a min span chunk: `65535`, "no data yet". -/
def minNeutralElement : Nat := 65535

/-- Neutral element of a max span chunk: `0`. -/
def maxNeutralElement : Nat := 0

/-! ## Chunk cell access

`Modelled from the spec:` `chunk_data_at` and its setter fail with a
length-mismatch error if `len(chunk) != chunk_size * validator_chunk_size`;
a stored 16-bit distance at `(validator, epoch)` encodes the target epoch
`epoch + distance`; the setter stores `target - epoch` narrowed to 16 bits.
Pinned by `Test_chunkDataAtEpoch_SetRetrieve`. -/

/-- Read the implied target epoch recorded for `(validator, epoch)`:
`epoch + stored distance`. Fails on a chunk of the wrong length. -/
def chunkDataAtEpoch (p : Parameters) (chunk : List Nat) (validator epoch : Nat) :
    Except String Nat :=
  if chunk.length = p.chunkSize * p.validatorChunkSize then
    Except.ok (epoch + chunk.getD (p.cellIndex validator epoch) 0)
  else
    Except.error "chunk has wrong length"

/-- Distance between a target epoch and a base epoch, narrowed to 16 bits;
fails when the base epoch exceeds the target epoch. -/
def epochDistance (epoch baseEpoch : Nat) : Except String Nat :=
  if baseEpoch ≤ epoch then Except.ok ((epoch - baseEpoch) % 65536)
  else Except.error "base epoch cannot be greater than epoch"

/-- Store the distance from `targetEpoch` back to `epochInChunk` in the cell
of `(validator, epochInChunk)`. Fails on a chunk of the wrong length or a
base epoch beyond the target. -/
def setChunkDataAtEpoch (p : Parameters) (chunk : List Nat) (validator epochInChunk targetEpoch : Nat) :
    Except String (List Nat) :=
  match epochDistance targetEpoch epochInChunk with
  | Except.error msg => Except.error msg
  | Except.ok distance =>
    if chunk.length = p.chunkSize * p.validatorChunkSize then
      Except.ok (chunk.set (p.cellIndex validator epochInChunk) distance)
    else
      Except.error "chunk has wrong length"

/-! ## Construction (spec §4.2, pinned by the `Chunk`/`From` tests) -/

/-- `Modelled from the spec:` an empty min span chunk slice, all cells at
the min neutral element. -/
def emptyMinSpanChunksSlice (p : Parameters) : List Nat :=
  List.replicate (p.chunkSize * p.validatorChunkSize) minNeutralElement

/-- `Modelled from the spec:` an empty max span chunk slice, all cells at
the max neutral element. -/
def emptyMaxSpanChunksSlice (p : Parameters) : List Nat :=
  List.replicate (p.chunkSize * p.validatorChunkSize) maxNeutralElement

/-- `Modelled from the spec:` wrap caller-supplied min span data; fails iff
the length is not `chunk_size * validator_chunk_size`. `Chunk()` on the
result is the wrapped list itself. -/
def minChunkSpansSliceFrom (p : Parameters) (chunk : List Nat) : Except String (List Nat) :=
  if chunk.length = p.chunkSize * p.validatorChunkSize then Except.ok chunk
  else Except.error "chunk has wrong length"

/-- `Modelled from the spec:` wrap caller-supplied max span data; fails iff
the length is not `chunk_size * validator_chunk_size`. -/
def maxChunkSpansSliceFrom (p : Parameters) (chunk : List Nat) : Except String (List Nat) :=
  if chunk.length = p.chunkSize * p.validatorChunkSize then Except.ok chunk
  else Except.error "chunk has wrong length"

/-! ## Update (spec §4.3, pinned by the `Update_SingleChunk` / `Update_MultipleChunks` tests)

`Modelled from the spec:` the min variant walks backward from `startEpoch`
while the epoch stays in `chunkIdx` and at or above the retention floor,
lowering each cell's implied target to `newTargetEpoch` and stopping early
once a cell already implies an equal-or-smaller target; the max variant
mirrors the walk forward bounded by `currentEpoch`. `keepGoing` is true
exactly when the walk left the chunk at an epoch that still needs
processing. -/

/-- The lowest epoch a min span update must reach: the retention floor
`current_epoch + 1 - history_length` (saturating at zero). -/
def minEpochFor (p : Parameters) (currentEpoch : Nat) : Nat :=
  currentEpoch + 1 - p.historyLength

/-- One iteration of the min update walk at epoch `e`: `Sum.inl` is a final
result `(data, keepGoing or error)`, `Sum.inr` is the written data to
continue with at the next lower epoch. -/
def minUpdateStep (p : Parameters) (chunkIdx validatorIndex newTargetEpoch minEpoch e : Nat)
    (d : List Nat) : (List Nat × Except String Bool) ⊕ List Nat :=
  if p.chunkIndex e = chunkIdx ∧ minEpoch ≤ e then
    match chunkDataAtEpoch p d validatorIndex e with
    | Except.error msg => Sum.inl (d, Except.error msg)
    | Except.ok chunkTarget =>
      if newTargetEpoch < chunkTarget then
        match setChunkDataAtEpoch p d validatorIndex e newTargetEpoch with
        | Except.error msg => Sum.inl (d, Except.error msg)
        | Except.ok d' => Sum.inr d'
      else
        Sum.inl (d, Except.ok false)
  else
    Sum.inl (d, Except.ok (decide (p.chunkIndex e ≠ chunkIdx ∧ minEpoch ≤ e)))

/-- The min update walk from epoch `e` down to the retention floor or the
chunk's lower boundary, whichever stops it first. -/
def minUpdateLoop (p : Parameters) (chunkIdx validatorIndex newTargetEpoch minEpoch : Nat) :
    Nat → List Nat → List Nat × Except String Bool
  | 0, d =>
    match minUpdateStep p chunkIdx validatorIndex newTargetEpoch minEpoch 0 d with
    | Sum.inl r => r
    | Sum.inr d' => (d', Except.ok false)
  | e + 1, d =>
    match minUpdateStep p chunkIdx validatorIndex newTargetEpoch minEpoch (e + 1) d with
    | Sum.inl r => r
    | Sum.inr d' => minUpdateLoop p chunkIdx validatorIndex newTargetEpoch minEpoch e d'

/-- `Update` of a min span chunk slice. Returns the chunk data at exit
together with `keepGoing` (or the propagated cell-access error). -/
def minUpdate (p : Parameters) (chunkIdx currentEpoch validatorIndex startEpoch newTargetEpoch : Nat)
    (d : List Nat) : List Nat × Except String Bool :=
  minUpdateLoop p chunkIdx validatorIndex newTargetEpoch (minEpochFor p currentEpoch) startEpoch d

/-- One iteration of the max update walk at epoch `e`, mirrored forward. -/
def maxUpdateStep (p : Parameters) (chunkIdx validatorIndex newTargetEpoch currentEpoch e : Nat)
    (d : List Nat) : (List Nat × Except String Bool) ⊕ List Nat :=
  if p.chunkIndex e = chunkIdx ∧ e ≤ currentEpoch then
    match chunkDataAtEpoch p d validatorIndex e with
    | Except.error msg => Sum.inl (d, Except.error msg)
    | Except.ok chunkTarget =>
      if chunkTarget < newTargetEpoch then
        match setChunkDataAtEpoch p d validatorIndex e newTargetEpoch with
        | Except.error msg => Sum.inl (d, Except.error msg)
        | Except.ok d' => Sum.inr d'
      else
        Sum.inl (d, Except.ok false)
  else
    Sum.inl (d, Except.ok (decide (p.chunkIndex e ≠ chunkIdx ∧ e ≤ currentEpoch)))

/-- The max update walk, driven by fuel `currentEpoch + 1 - e`, which the
forward walk's `e ≤ currentEpoch` guard never exhausts. -/
def maxUpdateLoop (p : Parameters) (chunkIdx validatorIndex newTargetEpoch currentEpoch : Nat) :
    Nat → Nat → List Nat → List Nat × Except String Bool
  | 0, e, d =>
    (d, Except.ok (decide (p.chunkIndex e ≠ chunkIdx ∧ e ≤ currentEpoch)))
  | fuel + 1, e, d =>
    match maxUpdateStep p chunkIdx validatorIndex newTargetEpoch currentEpoch e d with
    | Sum.inl r => r
    | Sum.inr d' => maxUpdateLoop p chunkIdx validatorIndex newTargetEpoch currentEpoch fuel (e + 1) d'

/-- `Update` of a max span chunk slice. -/
def maxUpdate (p : Parameters) (chunkIdx currentEpoch validatorIndex startEpoch newTargetEpoch : Nat)
    (d : List Nat) : List Nat × Except String Bool :=
  maxUpdateLoop p chunkIdx validatorIndex newTargetEpoch currentEpoch
    (currentEpoch + 1 - startEpoch) startEpoch d

/-! ## StartEpoch (spec §4.5, pinned by the `StartEpoch` tests) -/

/-- `Modelled from the spec:` min variant start epoch for
`(sourceEpoch, currentEpoch)`: exists only if `sourceEpoch > 0` and
`sourceEpoch` is strictly inside the retained window; the epoch looked at
is the one just before the source. Out of window gives `(0, false)`. -/
def minStartEpoch (p : Parameters) (sourceEpoch currentEpoch : Nat) : Nat × Bool :=
  if 0 < sourceEpoch ∧ currentEpoch - p.historyLength < sourceEpoch then
    (sourceEpoch - 1, true)
  else
    (0, false)

set_option linter.unusedVariables false in
/-- `Modelled from the spec:` max variant start epoch: `(currentEpoch,
true)` whenever `sourceEpoch < currentEpoch`, else `(0, false)`; no
retention-floor check (the parameters are unused, mirroring the source's
receiver). -/
def maxStartEpoch (p : Parameters) (sourceEpoch currentEpoch : Nat) : Nat × Bool :=
  if sourceEpoch < currentEpoch then (currentEpoch, true) else (0, false)

/-! ## NextChunkStartEpoch (spec §4.1, pinned by the `NextChunkStartEpoch` tests) -/

/-- `Modelled from the spec:` for the min variant's backward walk, the next
epoch to process after finishing a chunk is the last epoch of the chunk
below the one containing `startEpoch` (clamped at chunk zero). -/
def minNextChunkStartEpoch (p : Parameters) (startEpoch : Nat) : Nat :=
  p.lastEpoch (p.chunkIndex startEpoch - 1)

/-- `Modelled from the spec:` for the max variant's forward walk, the next
epoch to process is the first epoch of the chunk above the one containing
`startEpoch`. -/
def maxNextChunkStartEpoch (p : Parameters) (startEpoch : Nat) : Nat :=
  p.firstEpoch (p.chunkIndex startEpoch + 1)

/-! ## Attestations, evidence and CheckSlashable (spec §4.4, pinned by the
`CheckSlashable` tests) -/

/-- Wire-format versions carried by attestation wrappers. -/
def phase0Version : Nat := 0

/-- The post-Electra wire-format version. -/
def electraVersion : Nat := 5

/-- An indexed attestation wrapper: version tag, source and target epochs,
and the content (data) root used for deterministic evidence ordering. -/
structure AttestationWrapper where
  version : Nat
  sourceEpoch : Nat
  targetEpoch : Nat
  dataRoot : List Nat
deriving DecidableEq, Repr

/-- Slashing evidence: a version tag and the two attestations ordered by
ascending content root. -/
structure AttesterSlashing where
  version : Nat
  firstAttestation : AttestationWrapper
  secondAttestation : AttestationWrapper
deriving DecidableEq, Repr

/-- Byte-lexicographic comparison of content roots: `true` iff `a ≤ b`. -/
def rootLe : List Nat → List Nat → Bool
  | [], _ => true
  | _ :: _, [] => false
  | a :: as, b :: bs => if a < b then true else if b < a then false else rootLe as bs

/-- `Modelled from the spec:` one-way version promotion of an attestation
wrapper into representation `ver`, leaving its indexed data unchanged. -/
def upgradeAttestation (ver : Nat) (a : AttestationWrapper) : AttestationWrapper :=
  if a.version < ver then { a with version := ver } else a

/-- `Modelled from the spec:` build slashing evidence from a historical
record and a new attestation: order the two by ascending content root and
tag the evidence with the newer of the two versions, promoting the older
attestation into that representation. -/
def createAttesterSlashing (record att : AttestationWrapper) : AttesterSlashing :=
  let ver := max record.version att.version
  if rootLe record.dataRoot att.dataRoot then
    ⟨ver, upgradeAttestation ver record, upgradeAttestation ver att⟩
  else
    ⟨ver, upgradeAttestation ver att, upgradeAttestation ver record⟩

/-- The external attestation-record store, read by exact
`(validator_index, target_epoch)` key. -/
def RecordStore : Type := Nat → Nat → Option AttestationWrapper

/-- `Modelled from the spec:` min variant slashability check of `att` for
`validatorIndex` against chunk data `d`. Reads the stored min span at the
attestation's source epoch (a malformed chunk surfaces as the explicit
"could not get min target for validator" error); a neutral cell or an
implied target at or above the attestation's target is not slashable;
otherwise the historical record at the implied min target epoch is fetched
and, when present, turned into root-ordered, version-promoted evidence. -/
def checkSlashableMin (p : Parameters) (store : RecordStore) (validatorIndex : Nat)
    (d : List Nat) (att : AttestationWrapper) : Except String (Option AttesterSlashing) :=
  match chunkDataAtEpoch p d validatorIndex att.sourceEpoch with
  | Except.error _ => Except.error "could not get min target for validator"
  | Except.ok minTarget =>
    if d.getD (p.cellIndex validatorIndex att.sourceEpoch) 0 = minNeutralElement then
      Except.ok none
    else if minTarget < att.targetEpoch then
      match store validatorIndex minTarget with
      | none => Except.ok none
      | some record => Except.ok (some (createAttesterSlashing record att))
    else
      Except.ok none

/-- `Modelled from the spec:` max variant slashability check, mirrored:
the error message names the max span kind, the comparison is inverted, and
the record is fetched at the implied max target epoch. -/
def checkSlashableMax (p : Parameters) (store : RecordStore) (validatorIndex : Nat)
    (d : List Nat) (att : AttestationWrapper) : Except String (Option AttesterSlashing) :=
  match chunkDataAtEpoch p d validatorIndex att.sourceEpoch with
  | Except.error _ => Except.error "could not get max target for validator"
  | Except.ok maxTarget =>
    if d.getD (p.cellIndex validatorIndex att.sourceEpoch) 0 = maxNeutralElement then
      Except.ok none
    else if att.targetEpoch < maxTarget then
      match store validatorIndex maxTarget with
      | none => Except.ok none
      | some record => Except.ok (some (createAttesterSlashing record att))
    else
      Except.ok none

/-! ## The InclusionLists cache (`beacon-chain/cache`, translated from the
Go source in the repository) -/

/-- A transaction: an opaque byte sequence. -/
abbrev Tx := List Nat

/-- One cache entry per `(slot, validator index)`: the stored transactions
(`none` models Go's nil slice, i.e. "never stored") and the seen-twice
mark. -/
structure ILEntry where
  txs : Option (List Tx)
  seenTwice : Bool
deriving DecidableEq, Repr

/-- Go's zero value for an `ILEntry`. -/
def ILEntry.zero : ILEntry := ⟨none, false⟩

/-- Association-list lookup by `Nat` key, modelling Go map indexing. -/
def assocFind {α : Type} : List (Nat × α) → Nat → Option α
  | [], _ => none
  | (k, v) :: rest, key => if k = key then some v else assocFind rest key

/-- Association-list store by `Nat` key, modelling Go map assignment. -/
def assocSet {α : Type} : List (Nat × α) → Nat → α → List (Nat × α)
  | [], key, v => [(key, v)]
  | (k, v') :: rest, key, v =>
    if k = key then (key, v) :: rest else (k, v') :: assocSet rest key v

/-- Association-list removal by `Nat` key, modelling Go's `delete`. -/
def assocErase {α : Type} : List (Nat × α) → Nat → List (Nat × α)
  | [], _ => []
  | (k, v) :: rest, key => if k = key then rest else (k, v) :: assocErase rest key

/-- The per-slot inclusion lists: validator index to entry. -/
abbrev SlotILs := List (Nat × ILEntry)

/-- The full cache state: slot to per-slot inclusion lists. -/
abbrev ILState := List (Nat × SlotILs)

namespace InclusionLists

/-- The freshly initialized cache. -/
def new : ILState := []

/-- `Add` of the Go source: the first add for a `(slot, validator)` pair
stores the transactions; a second add marks the entry seen-twice and clears
them; once seen-twice, the add is a no-op. -/
def add (st : ILState) (slot validatorIndex : Nat) (txs : List Tx) : ILState :=
  let slotMap := (assocFind st slot).getD []
  let entry := (assocFind slotMap validatorIndex).getD ILEntry.zero
  if entry.seenTwice then
    st
  else
    let entry' :=
      if entry.txs.isNone then { entry with txs := some txs }
      else { txs := none, seenTwice := true }
    assocSet st slot (assocSet slotMap validatorIndex entry')

/-- The deduplicating scan of `Get`: emit each transaction whose hash has
not been seen, recording hashes of emitted transactions. The hash function
`h` models `sha256.Sum256`. -/
def dedupTxs (h : Tx → List Nat) : List Tx → List (List Nat) → List Tx
  | [], _ => []
  | tx :: rest, seen =>
    if h tx ∈ seen then dedupTxs h rest seen
    else tx :: dedupTxs h rest (h tx :: seen)

/-- `Get` of the Go source: the unique transactions stored for a slot,
deduplicated by transaction hash; empty when the slot is unknown. -/
def get (h : Tx → List Nat) (st : ILState) (slot : Nat) : List Tx :=
  match assocFind st slot with
  | none => []
  | some slotMap => dedupTxs h (slotMap.flatMap fun ve => ve.2.txs.getD []) []

/-- `SeenTwice` of the Go source: whether the entry for
`(slot, validatorIndex)` exists and is marked seen-twice. -/
def seenTwice (st : ILState) (slot validatorIndex : Nat) : Bool :=
  match assocFind st slot with
  | none => false
  | some slotMap =>
    match assocFind slotMap validatorIndex with
    | none => false
    | some entry => entry.seenTwice

/-- `Delete` of the Go source: drop all inclusion lists of a slot. -/
def delete (st : ILState) (slot : Nat) : ILState :=
  assocErase st slot

/-- Lookup of one entry, the composition of the two Go map reads. -/
def lookupEntry (st : ILState) (slot validatorIndex : Nat) : Option ILEntry :=
  match assocFind st slot with
  | none => none
  | some slotMap => assocFind slotMap validatorIndex

/-- The structural invariant of reachable cache states: a seen-twice entry
holds no transactions. -/
def inv (st : ILState) : Prop :=
  ∀ sm ∈ st, ∀ ve ∈ sm.2, ve.2.seenTwice = true → ve.2.txs = none

instance (st : ILState) : Decidable (inv st) := by
  unfold inv; infer_instance

end InclusionLists

/-! ## Theorems for the claims -/

/-- **C8.** Construction raises-iff and round-trip: for every `Parameters`
and data slice, `MinChunkSpansSliceFrom` and `MaxChunkSpansSliceFrom` fail
with the length-mismatch error if and only if the data length differs from
`chunk_size * validator_chunk_size`, and on success `Chunk()` returns
exactly the supplied data unchanged. -/
theorem c8_construction_raises_iff_round_trip (p : Parameters) (data : List Nat) :
    (minChunkSpansSliceFrom p data = Except.error "chunk has wrong length" ↔
      data.length ≠ p.chunkSize * p.validatorChunkSize) ∧
    (maxChunkSpansSliceFrom p data = Except.error "chunk has wrong length" ↔
      data.length ≠ p.chunkSize * p.validatorChunkSize) ∧
    (data.length = p.chunkSize * p.validatorChunkSize →
      minChunkSpansSliceFrom p data = Except.ok data ∧
      maxChunkSpansSliceFrom p data = Except.ok data) := by
  unfold minChunkSpansSliceFrom maxChunkSpansSliceFrom
  by_cases h : data.length = p.chunkSize * p.validatorChunkSize <;>
    simp [h]

/-- Witness for C8 at the concrete inputs of the repository's tests. -/
theorem c8_construction_raises_iff_round_trip_witness :
    minChunkSpansSliceFrom ⟨3, 2, 0⟩ [] = Except.error "chunk has wrong length" ∧
    minChunkSpansSliceFrom ⟨3, 2, 0⟩ [2, 2, 2, 2, 2, 2] = Except.ok [2, 2, 2, 2, 2, 2] ∧
    maxChunkSpansSliceFrom ⟨3, 2, 0⟩ [2, 2, 2, 2, 2, 2] = Except.ok [2, 2, 2, 2, 2, 2] := by
  refine ⟨(c8_construction_raises_iff_round_trip ⟨3, 2, 0⟩ []).1.mpr (by decide), ?_, ?_⟩
  · exact ((c8_construction_raises_iff_round_trip ⟨3, 2, 0⟩ [2, 2, 2, 2, 2, 2]).2.2 (by decide)).1
  · exact ((c8_construction_raises_iff_round_trip ⟨3, 2, 0⟩ [2, 2, 2, 2, 2, 2]).2.2 (by decide)).2

/-- **C7.** For every chunk whose backing array length differs from
`chunk_size * validator_chunk_size`, `CheckSlashable` returns an explicit
error naming the span kind — "could not get min target for validator" for
the Min variant and "could not get max target for validator" for the Max
variant. -/
theorem c7_check_slashable_malformed_chunk_error (p : Parameters) (store : RecordStore)
    (validatorIndex : Nat) (d : List Nat) (att : AttestationWrapper)
    (h : d.length ≠ p.chunkSize * p.validatorChunkSize) :
    checkSlashableMin p store validatorIndex d att =
      Except.error "could not get min target for validator" ∧
    checkSlashableMax p store validatorIndex d att =
      Except.error "could not get max target for validator" := by
  unfold checkSlashableMin checkSlashableMax chunkDataAtEpoch
  simp [h]

/-- Witness for C7: the zero-length chunk of the repository's tests. -/
theorem c7_check_slashable_malformed_chunk_error_witness :
    checkSlashableMin ⟨3, 2, 3⟩ (fun _ _ => none) 1 [] ⟨phase0Version, 1, 2, []⟩ =
      Except.error "could not get min target for validator" ∧
    checkSlashableMax ⟨4, 2, 4⟩ (fun _ _ => none) 1 [] ⟨phase0Version, 1, 2, []⟩ =
      Except.error "could not get max target for validator" :=
  ⟨(c7_check_slashable_malformed_chunk_error ⟨3, 2, 3⟩ (fun _ _ => none) 1 []
      ⟨phase0Version, 1, 2, []⟩ (by decide)).1,
   (c7_check_slashable_malformed_chunk_error ⟨4, 2, 4⟩ (fun _ _ => none) 1 []
      ⟨phase0Version, 1, 2, []⟩ (by decide)).2⟩

/-- **C5.** `StartEpoch` window membership: the Min variant returns an
existing epoch iff `source_epoch > 0` and `source_epoch` lies strictly
inside the retained window `(current_epoch - history_length, ∞)`, and
returns `(0, false)` otherwise; the Max variant returns
`(current_epoch, true)` whenever `source_epoch < current_epoch` and
`(0, false)` otherwise, with no retention-floor check. -/
theorem c5_start_epoch_window_membership (p : Parameters) (sourceEpoch currentEpoch : Nat) :
    ((minStartEpoch p sourceEpoch currentEpoch).2 = true ↔
      0 < sourceEpoch ∧ currentEpoch - p.historyLength < sourceEpoch) ∧
    (¬(0 < sourceEpoch ∧ currentEpoch - p.historyLength < sourceEpoch) →
      minStartEpoch p sourceEpoch currentEpoch = (0, false)) ∧
    (sourceEpoch < currentEpoch →
      maxStartEpoch p sourceEpoch currentEpoch = (currentEpoch, true)) ∧
    (¬sourceEpoch < currentEpoch →
      maxStartEpoch p sourceEpoch currentEpoch = (0, false)) := by
  unfold minStartEpoch maxStartEpoch
  by_cases h : 0 < sourceEpoch ∧ currentEpoch - p.historyLength < sourceEpoch <;>
    by_cases h2 : sourceEpoch < currentEpoch <;> simp [h, h2]

/-- Witness for C5 at the concrete inputs of the repository's tests. -/
theorem c5_start_epoch_window_membership_witness :
    minStartEpoch defaultParams 0 0 = (0, false) ∧
    minStartEpoch ⟨0, 0, 3⟩ 1 4 = (0, false) ∧
    minStartEpoch ⟨0, 0, 3⟩ 1 5 = (0, false) ∧
    (minStartEpoch ⟨0, 0, 3⟩ 1 3).2 = true ∧
    maxStartEpoch defaultParams 1 1 = (0, false) ∧
    maxStartEpoch defaultParams 2 1 = (0, false) ∧
    maxStartEpoch defaultParams 1 2 = (2, true) :=
  ⟨(c5_start_epoch_window_membership defaultParams 0 0).2.1 (by decide),
   (c5_start_epoch_window_membership ⟨0, 0, 3⟩ 1 4).2.1 (by decide),
   (c5_start_epoch_window_membership ⟨0, 0, 3⟩ 1 5).2.1 (by decide),
   (c5_start_epoch_window_membership ⟨0, 0, 3⟩ 1 3).1.mpr (by decide),
   (c5_start_epoch_window_membership defaultParams 1 1).2.2.2 (by decide),
   (c5_start_epoch_window_membership defaultParams 2 1).2.2.2 (by decide),
   (c5_start_epoch_window_membership defaultParams 1 2).2.2.1 (by decide)⟩

/-! ### List and modular-arithmetic helpers for the update-walk proofs -/

/-- Reading the cell just written yields the written value. -/
theorem getD_set_self : ∀ (l : List Nat) (i x : Nat), i < l.length → (l.set i x).getD i 0 = x
  | [], i, x, h => absurd h (by simp)
  | _ :: _, 0, _, _ => rfl
  | a :: t, i + 1, x, h => by
    show (a :: t.set i x).getD (i + 1) 0 = x
    rw [List.getD_cons_succ]
    exact getD_set_self t i x (by simpa using h)

/-- Writing one cell leaves every other cell unchanged. -/
theorem getD_set_ne : ∀ (l : List Nat) (i j x : Nat), i ≠ j →
    (l.set i x).getD j 0 = l.getD j 0
  | [], _, _, _, _ => rfl
  | _ :: _, 0, 0, _, h => absurd rfl h
  | a :: t, 0, j + 1, x, _ => by
    show (x :: t).getD (j + 1) 0 = (a :: t).getD (j + 1) 0
    rw [List.getD_cons_succ, List.getD_cons_succ]
  | a :: t, i + 1, 0, x, _ => by
    show (a :: t.set i x).getD 0 0 = (a :: t).getD 0 0
    rw [List.getD_cons_zero, List.getD_cons_zero]
  | a :: t, i + 1, j + 1, x, h => by
    show (a :: t.set i x).getD (j + 1) 0 = (a :: t).getD (j + 1) 0
    rw [List.getD_cons_succ, List.getD_cons_succ]
    exact getD_set_ne t i j x (by omega)

/-- A write either leaves a cell unchanged or stores the written value in
bounds. -/
theorem getD_set_cases (l : List Nat) (i j x : Nat) :
    (l.set i x).getD j 0 = l.getD j 0 ∨
    ((l.set i x).getD j 0 = x ∧ i = j ∧ j < l.length) := by
  by_cases hij : i = j
  · subst hij
    by_cases hl : i < l.length
    · exact Or.inr ⟨getD_set_self l i x hl, rfl, hl⟩
    · left
      rw [List.set_eq_of_length_le (by omega)]
  · exact Or.inl (getD_set_ne l i j x hij)

/-- A non-wrapping successor of residues mod `H`. -/
theorem mod_succ_of_lt {H j : Nat} (h : j % H + 1 < H) : (j + 1) % H = j % H + 1 := by
  have h0 : 0 < H := by omega
  have hd := Nat.div_add_mod j H
  have hj : j + 1 = (j % H + 1) + H * (j / H) := by omega
  rw [hj, Nat.add_mul_mod_self_left]
  exact Nat.mod_eq_of_lt h

/-- The wrapping successor of the top residue mod `H`. -/
theorem mod_succ_of_eq {H j : Nat} (h0 : 0 < H) (h : j % H = H - 1) : (j + 1) % H = 0 := by
  have hd := Nat.div_add_mod j H
  have hj : j + 1 = H * (j / H) + H := by omega
  rw [hj, Nat.add_mod_right, Nat.mul_mod_right]

/-- Membership of an epoch in a chunk bounds its residue mod the history
length. -/
theorem chunkIndex_bounds (p : Parameters) (cIdx j : Nat) (hC : 0 < p.chunkSize)
    (h : p.chunkIndex j = cIdx) :
    p.chunkSize * cIdx ≤ j % p.historyLength ∧
    j % p.historyLength < p.chunkSize * cIdx + p.chunkSize := by
  unfold Parameters.chunkIndex at h
  have hd := Nat.div_add_mod (j % p.historyLength) p.chunkSize
  have hm : (j % p.historyLength) % p.chunkSize < p.chunkSize :=
    Nat.mod_lt _ hC
  rw [h] at hd
  omega

/-- A run of consecutive epochs inside one chunk spans fewer than
`chunk_size` epochs. -/
theorem chunk_run_bound (p : Parameters) (cIdx : Nat) (hC : 0 < p.chunkSize)
    (hH : p.chunkSize < p.historyLength) (a k : Nat)
    (hall : ∀ j, a ≤ j → j ≤ a + k → p.chunkIndex j = cIdx) : k < p.chunkSize := by
  by_contra hk
  push_neg at hk
  have hH0 : 0 < p.historyLength := by omega
  by_cases hw : ∃ i, i < p.chunkSize ∧ (a + i) % p.historyLength = p.historyLength - 1
  · obtain ⟨i, hi, hwi⟩ := hw
    have h1 := chunkIndex_bounds p cIdx (a + i) hC (hall (a + i) (by omega) (by omega))
    have h2 : (a + i + 1) % p.historyLength = 0 := mod_succ_of_eq hH0 hwi
    have h3 := chunkIndex_bounds p cIdx (a + i + 1) hC (hall (a + i + 1) (by omega) (by omega))
    rw [h2] at h3
    rw [hwi] at h1
    omega
  · push_neg at hw
    have hacc : ∀ i, i ≤ p.chunkSize → (a + i) % p.historyLength = a % p.historyLength + i := by
      intro i
      induction i with
      | zero => intro _; simp
      | succ n ih =>
        intro hn
        have hprev := ih (by omega)
        have hnw : (a + n) % p.historyLength ≠ p.historyLength - 1 := hw n (by omega)
        have hlt : (a + n) % p.historyLength < p.historyLength := Nat.mod_lt _ hH0
        have hstep : (a + n + 1) % p.historyLength = (a + n) % p.historyLength + 1 :=
          mod_succ_of_lt (by omega)
        have hn1 : a + (n + 1) = a + n + 1 := by omega
        rw [hn1, hstep, hprev]
        omega
    have h0 := chunkIndex_bounds p cIdx a hC (hall a (by omega) (by omega))
    have hCb := chunkIndex_bounds p cIdx (a + p.chunkSize) hC
      (hall (a + p.chunkSize) (by omega) (by omega))
    rw [hacc p.chunkSize (Nat.le_refl _)] at hCb
    omega

/-- Distinct epochs joined by an in-chunk run of consecutive epochs write
distinct cells of the same validator. -/
theorem cellIndex_ne_of_run (p : Parameters) (cIdx v : Nat) (hC : 0 < p.chunkSize)
    (hH : p.chunkSize < p.historyLength) {a b : Nat} (hab : a < b)
    (hrun : ∀ j, a ≤ j → j ≤ b → p.chunkIndex j = cIdx) :
    p.cellIndex v a ≠ p.cellIndex v b := by
  have hk : b - a < p.chunkSize := by
    refine chunk_run_bound p cIdx hC hH a (b - a) ?_
    intro j h1 h2
    exact hrun j h1 (by omega)
  intro heq
  unfold Parameters.cellIndex at heq
  have hmm : a % p.chunkSize = b % p.chunkSize := by omega
  have hk0 : 0 < b - a := by omega
  -- equal residues over a gap below the modulus force a zero gap
  have habs : a % p.chunkSize = (a % p.chunkSize + (b - a)) % p.chunkSize := by
    have hb : b = a + (b - a) := by omega
    calc a % p.chunkSize = b % p.chunkSize := hmm
      _ = (a + (b - a)) % p.chunkSize := by rw [← hb]
      _ = (a % p.chunkSize + (b - a) % p.chunkSize) % p.chunkSize := Nat.add_mod _ _ _
      _ = (a % p.chunkSize + (b - a)) % p.chunkSize := by
            rw [Nat.mod_eq_of_lt hk]
  have hma : a % p.chunkSize < p.chunkSize := Nat.mod_lt _ hC
  rcases Nat.lt_or_ge (a % p.chunkSize + (b - a)) p.chunkSize with hcase | hcase
  · rw [Nat.mod_eq_of_lt hcase] at habs
    omega
  · have h2 : (a % p.chunkSize + (b - a)) % p.chunkSize =
        a % p.chunkSize + (b - a) - p.chunkSize := by
      rw [Nat.mod_eq_sub_mod hcase]
      exact Nat.mod_eq_of_lt (by omega)
    rw [h2] at habs
    omega

/-! ### Inversion and evaluation lemmas for the update walks -/

/-- Inversion of a successful cell read. -/
theorem chunkDataAtEpoch_ok (p : Parameters) (chunk : List Nat) (v epoch ct : Nat)
    (h : chunkDataAtEpoch p chunk v epoch = Except.ok ct) :
    chunk.length = p.chunkSize * p.validatorChunkSize ∧
    ct = epoch + chunk.getD (p.cellIndex v epoch) 0 := by
  unfold chunkDataAtEpoch at h
  split at h
  · exact ⟨by assumption, (Except.ok.inj h).symm⟩
  · exact Except.noConfusion h

/-- Inversion of a successful cell write. -/
theorem setChunkDataAtEpoch_ok (p : Parameters) (chunk : List Nat) (v e t : Nat)
    (d' : List Nat) (h : setChunkDataAtEpoch p chunk v e t = Except.ok d') :
    e ≤ t ∧ chunk.length = p.chunkSize * p.validatorChunkSize ∧
    d' = chunk.set (p.cellIndex v e) ((t - e) % 65536) := by
  unfold setChunkDataAtEpoch at h
  split at h
  · exact Except.noConfusion h
  · rename_i distance heq
    unfold epochDistance at heq
    split at heq
    · rename_i het
      have hdist : distance = (t - e) % 65536 := (Except.ok.inj heq).symm
      split at h
      · rename_i hlen
        exact ⟨het, hlen, by rw [← Except.ok.inj h, hdist]⟩
      · exact Except.noConfusion h
    · exact Except.noConfusion heq

/-- A final min step returns the chunk data unchanged. -/
theorem minUpdateStep_inl (p : Parameters) (cIdx v t M e : Nat) (d : List Nat)
    (r : List Nat × Except String Bool)
    (h : minUpdateStep p cIdx v t M e d = Sum.inl r) : r.1 = d := by
  unfold minUpdateStep at h
  split at h
  · split at h
    · cases h; rfl
    · split at h
      · split at h
        · cases h; rfl
        · exact Sum.noConfusion h
      · cases h; rfl
  · cases h; rfl

/-- Inversion of a continuing min step: the guard held, the read succeeded,
the write lowered the cell, and the walk continues on the written data. -/
theorem minUpdateStep_inr (p : Parameters) (cIdx v t M e : Nat) (d d' : List Nat)
    (h : minUpdateStep p cIdx v t M e d = Sum.inr d') :
    p.chunkIndex e = cIdx ∧ M ≤ e ∧
    d.length = p.chunkSize * p.validatorChunkSize ∧ e ≤ t ∧
    t < e + d.getD (p.cellIndex v e) 0 ∧
    d' = d.set (p.cellIndex v e) ((t - e) % 65536) := by
  unfold minUpdateStep at h
  split at h
  · rename_i hguard
    rcases hread : chunkDataAtEpoch p d v e with m | ct <;> simp only [hread] at h
    · exact Sum.noConfusion h
    · obtain ⟨hlen, hct⟩ := chunkDataAtEpoch_ok p d v e ct hread
      split at h
      · rcases hset : setChunkDataAtEpoch p d v e t with m | d'' <;> simp only [hset] at h
        · exact Sum.noConfusion h
        · obtain ⟨het, _, hd''⟩ := setChunkDataAtEpoch_ok p d v e t d'' hset
          cases h
          exact ⟨hguard.1, hguard.2, hlen, het, by omega, hd''⟩
      · exact Sum.noConfusion h
  · exact Sum.noConfusion h

/-- Classification of a final min step into its four exit reasons. -/
theorem minUpdateStep_inl_cases (p : Parameters) (cIdx v t M e : Nat) (d : List Nat)
    (r : List Nat × Except String Bool)
    (h : minUpdateStep p cIdx v t M e d = Sum.inl r) :
    (¬(p.chunkIndex e = cIdx ∧ M ≤ e) ∧
      r.2 = Except.ok (decide (p.chunkIndex e ≠ cIdx ∧ M ≤ e))) ∨
    ((p.chunkIndex e = cIdx ∧ M ≤ e) ∧ (∃ msg, r.2 = Except.error msg)) ∨
    ((p.chunkIndex e = cIdx ∧ M ≤ e) ∧
      d.length = p.chunkSize * p.validatorChunkSize ∧
      ¬t < e + d.getD (p.cellIndex v e) 0 ∧ r.2 = Except.ok false) := by
  unfold minUpdateStep at h
  split at h
  · rename_i hguard
    rcases hread : chunkDataAtEpoch p d v e with m | ct <;> simp only [hread] at h
    · cases h
      exact Or.inr (Or.inl ⟨hguard, m, rfl⟩)
    · obtain ⟨hlen, hct⟩ := chunkDataAtEpoch_ok p d v e ct hread
      split at h
      · rcases hset : setChunkDataAtEpoch p d v e t with m | d'' <;> simp only [hset] at h
        · cases h
          exact Or.inr (Or.inl ⟨hguard, m, rfl⟩)
        · exact Sum.noConfusion h
      · cases h
        rename_i hnlt
        exact Or.inr (Or.inr ⟨hguard, hlen, by omega, rfl⟩)
  · rename_i hguard
    cases h
    exact Or.inl ⟨hguard, rfl⟩

/-- Evaluation of the min step when the walk's guard fails. -/
theorem minUpdateStep_eq_exit (p : Parameters) (cIdx v t M e : Nat) (d : List Nat)
    (h : ¬(p.chunkIndex e = cIdx ∧ M ≤ e)) :
    minUpdateStep p cIdx v t M e d =
      Sum.inl (d, Except.ok (decide (p.chunkIndex e ≠ cIdx ∧ M ≤ e))) := by
  unfold minUpdateStep
  rw [if_neg h]

/-- Evaluation of the min step when the guard holds and the write lowers
the cell. -/
theorem minUpdateStep_eq_inr (p : Parameters) (cIdx v t M e : Nat) (d : List Nat)
    (hg : p.chunkIndex e = cIdx) (hM : M ≤ e)
    (hlen : d.length = p.chunkSize * p.validatorChunkSize) (het : e ≤ t)
    (hlt : t < e + d.getD (p.cellIndex v e) 0) :
    minUpdateStep p cIdx v t M e d =
      Sum.inr (d.set (p.cellIndex v e) ((t - e) % 65536)) := by
  unfold minUpdateStep chunkDataAtEpoch setChunkDataAtEpoch epochDistance
  rw [if_pos ⟨hg, hM⟩, if_pos hlen]
  show (if t < e + d.getD (p.cellIndex v e) 0 then _ else _) = _
  rw [if_pos hlt, if_pos het]
  simp [hlen]

/-- The one-iteration unfolding of the min update walk. -/
theorem minUpdateLoop_eq (p : Parameters) (cIdx v t M e : Nat) (d : List Nat) :
    minUpdateLoop p cIdx v t M e d =
      match minUpdateStep p cIdx v t M e d with
      | Sum.inl r => r
      | Sum.inr d' =>
        match e with
        | 0 => (d', Except.ok false)
        | e' + 1 => minUpdateLoop p cIdx v t M e' d' := by
  cases e <;> rfl

/-- A final max step returns the chunk data unchanged. -/
theorem maxUpdateStep_inl (p : Parameters) (cIdx v t cur e : Nat) (d : List Nat)
    (r : List Nat × Except String Bool)
    (h : maxUpdateStep p cIdx v t cur e d = Sum.inl r) : r.1 = d := by
  unfold maxUpdateStep at h
  split at h
  · split at h
    · cases h; rfl
    · split at h
      · split at h
        · cases h; rfl
        · exact Sum.noConfusion h
      · cases h; rfl
  · cases h; rfl

/-- Inversion of a continuing max step. -/
theorem maxUpdateStep_inr (p : Parameters) (cIdx v t cur e : Nat) (d d' : List Nat)
    (h : maxUpdateStep p cIdx v t cur e d = Sum.inr d') :
    p.chunkIndex e = cIdx ∧ e ≤ cur ∧
    d.length = p.chunkSize * p.validatorChunkSize ∧
    e + d.getD (p.cellIndex v e) 0 < t ∧
    d' = d.set (p.cellIndex v e) ((t - e) % 65536) := by
  unfold maxUpdateStep at h
  split at h
  · rename_i hguard
    rcases hread : chunkDataAtEpoch p d v e with m | ct <;> simp only [hread] at h
    · exact Sum.noConfusion h
    · obtain ⟨hlen, hct⟩ := chunkDataAtEpoch_ok p d v e ct hread
      split at h
      · rcases hset : setChunkDataAtEpoch p d v e t with m | d'' <;> simp only [hset] at h
        · exact Sum.noConfusion h
        · obtain ⟨het, _, hd''⟩ := setChunkDataAtEpoch_ok p d v e t d'' hset
          cases h
          exact ⟨hguard.1, hguard.2, hlen, by omega, hd''⟩
      · exact Sum.noConfusion h
  · exact Sum.noConfusion h

/-- Classification of a final max step into its exit reasons. -/
theorem maxUpdateStep_inl_cases (p : Parameters) (cIdx v t cur e : Nat) (d : List Nat)
    (r : List Nat × Except String Bool)
    (h : maxUpdateStep p cIdx v t cur e d = Sum.inl r) :
    (¬(p.chunkIndex e = cIdx ∧ e ≤ cur) ∧
      r.2 = Except.ok (decide (p.chunkIndex e ≠ cIdx ∧ e ≤ cur))) ∨
    ((p.chunkIndex e = cIdx ∧ e ≤ cur) ∧ (∃ msg, r.2 = Except.error msg)) ∨
    ((p.chunkIndex e = cIdx ∧ e ≤ cur) ∧
      d.length = p.chunkSize * p.validatorChunkSize ∧
      ¬e + d.getD (p.cellIndex v e) 0 < t ∧ r.2 = Except.ok false) := by
  unfold maxUpdateStep at h
  split at h
  · rename_i hguard
    rcases hread : chunkDataAtEpoch p d v e with m | ct <;> simp only [hread] at h
    · cases h
      exact Or.inr (Or.inl ⟨hguard, m, rfl⟩)
    · obtain ⟨hlen, hct⟩ := chunkDataAtEpoch_ok p d v e ct hread
      split at h
      · rcases hset : setChunkDataAtEpoch p d v e t with m | d'' <;> simp only [hset] at h
        · cases h
          exact Or.inr (Or.inl ⟨hguard, m, rfl⟩)
        · exact Sum.noConfusion h
      · cases h
        rename_i hnlt
        exact Or.inr (Or.inr ⟨hguard, hlen, by omega, rfl⟩)
  · rename_i hguard
    cases h
    exact Or.inl ⟨hguard, rfl⟩

/-- Evaluation of the max step when the walk's guard fails. -/
theorem maxUpdateStep_eq_exit (p : Parameters) (cIdx v t cur e : Nat) (d : List Nat)
    (h : ¬(p.chunkIndex e = cIdx ∧ e ≤ cur)) :
    maxUpdateStep p cIdx v t cur e d =
      Sum.inl (d, Except.ok (decide (p.chunkIndex e ≠ cIdx ∧ e ≤ cur))) := by
  unfold maxUpdateStep
  rw [if_neg h]

/-- Evaluation of the max step when the guard holds and the write raises
the cell. -/
theorem maxUpdateStep_eq_inr (p : Parameters) (cIdx v t cur e : Nat) (d : List Nat)
    (hg : p.chunkIndex e = cIdx) (hcur : e ≤ cur)
    (hlen : d.length = p.chunkSize * p.validatorChunkSize)
    (hlt : e + d.getD (p.cellIndex v e) 0 < t) :
    maxUpdateStep p cIdx v t cur e d =
      Sum.inr (d.set (p.cellIndex v e) ((t - e) % 65536)) := by
  unfold maxUpdateStep chunkDataAtEpoch setChunkDataAtEpoch epochDistance
  rw [if_pos ⟨hg, hcur⟩, if_pos hlen]
  show (if e + d.getD (p.cellIndex v e) 0 < t then _ else _) = _
  rw [if_pos hlt, if_pos (by omega : e ≤ t)]
  simp [hlen]

/-- The one-iteration unfolding of the max update walk. -/
theorem maxUpdateLoop_eq (p : Parameters) (cIdx v t cur fuel e : Nat) (d : List Nat) :
    maxUpdateLoop p cIdx v t cur (fuel + 1) e d =
      match maxUpdateStep p cIdx v t cur e d with
      | Sum.inl r => r
      | Sum.inr d' => maxUpdateLoop p cIdx v t cur fuel (e + 1) d' := rfl

/-- Evaluation of the min step when the guard holds but the cell already
implies an equal-or-smaller target: the walk stops early. -/
theorem minUpdateStep_eq_stop (p : Parameters) (cIdx v t M e : Nat) (d : List Nat)
    (hg : p.chunkIndex e = cIdx) (hM : M ≤ e)
    (hlen : d.length = p.chunkSize * p.validatorChunkSize)
    (hnlt : ¬t < e + d.getD (p.cellIndex v e) 0) :
    minUpdateStep p cIdx v t M e d = Sum.inl (d, Except.ok false) := by
  unfold minUpdateStep chunkDataAtEpoch
  rw [if_pos ⟨hg, hM⟩, if_pos hlen]
  show (if t < e + d.getD (p.cellIndex v e) 0 then _ else _) = _
  rw [if_neg hnlt]

/-- Evaluation of the max step when the guard holds but the cell already
implies an equal-or-larger target: the walk stops early. -/
theorem maxUpdateStep_eq_stop (p : Parameters) (cIdx v t cur e : Nat) (d : List Nat)
    (hg : p.chunkIndex e = cIdx) (hcur : e ≤ cur)
    (hlen : d.length = p.chunkSize * p.validatorChunkSize)
    (hnlt : ¬e + d.getD (p.cellIndex v e) 0 < t) :
    maxUpdateStep p cIdx v t cur e d = Sum.inl (d, Except.ok false) := by
  unfold maxUpdateStep chunkDataAtEpoch
  rw [if_pos ⟨hg, hcur⟩, if_pos hlen]
  show (if e + d.getD (p.cellIndex v e) 0 < t then _ else _) = _
  rw [if_neg hnlt]

/-- A cell of a well-formed chunk lies inside the backing array. -/
theorem cellIndex_lt (p : Parameters) (v e : Nat) (hC : 0 < p.chunkSize)
    (hK : 0 < p.validatorChunkSize) :
    p.cellIndex v e < p.chunkSize * p.validatorChunkSize := by
  unfold Parameters.cellIndex Parameters.validatorOffset
  have h1 : v % p.validatorChunkSize < p.validatorChunkSize := Nat.mod_lt _ hK
  have h2 : e % p.chunkSize < p.chunkSize := Nat.mod_lt _ hC
  have h3 : v % p.validatorChunkSize * p.chunkSize ≤
      (p.validatorChunkSize - 1) * p.chunkSize :=
    Nat.mul_le_mul_right _ (by omega)
  have h4 : (p.validatorChunkSize - 1) * p.chunkSize + p.chunkSize =
      p.chunkSize * p.validatorChunkSize := by
    have h5 : p.validatorChunkSize - 1 + 1 = p.validatorChunkSize := by omega
    calc (p.validatorChunkSize - 1) * p.chunkSize + p.chunkSize
        = (p.validatorChunkSize - 1 + 1) * p.chunkSize := by ring
      _ = p.validatorChunkSize * p.chunkSize := by rw [h5]
      _ = p.chunkSize * p.validatorChunkSize := Nat.mul_comm _ _
  omega

/-- A lowering write never raises any cell. -/
theorem min_write_le (d : List Nat) (c e t i : Nat)
    (hlt : t < e + d.getD c 0) :
    (d.set c ((t - e) % 65536)).getD i 0 ≤ d.getD i 0 := by
  rcases getD_set_cases d c i ((t - e) % 65536) with hc | ⟨hc, hci, _⟩
  · rw [hc]
  · rw [hc, ← hci]
    have := Nat.mod_le (t - e) 65536
    omega

/-- The min update walk preserves the chunk length. -/
theorem min_loop_length (p : Parameters) (cIdx v t M : Nat) :
    ∀ (e : Nat) (d : List Nat),
      ((minUpdateLoop p cIdx v t M e d).1).length = d.length := by
  intro e
  induction e with
  | zero =>
    intro d
    rw [minUpdateLoop_eq]
    rcases hstep : minUpdateStep p cIdx v t M 0 d with r | d'
    · show r.1.length = d.length
      rw [minUpdateStep_inl p cIdx v t M 0 d r hstep]
    · obtain ⟨_, _, _, _, _, hd'⟩ := minUpdateStep_inr p cIdx v t M 0 d d' hstep
      show d'.length = d.length
      rw [hd', List.length_set]
  | succ e' ih =>
    intro d
    rw [minUpdateLoop_eq]
    rcases hstep : minUpdateStep p cIdx v t M (e' + 1) d with r | d'
    · show r.1.length = d.length
      rw [minUpdateStep_inl p cIdx v t M (e' + 1) d r hstep]
    · obtain ⟨_, _, _, _, _, hd'⟩ := minUpdateStep_inr p cIdx v t M (e' + 1) d d' hstep
      show ((minUpdateLoop p cIdx v t M e' d').1).length = d.length
      rw [ih d', hd', List.length_set]

/-- The min update walk never raises any cell. -/
theorem min_loop_monotone (p : Parameters) (cIdx v t M : Nat) :
    ∀ (e : Nat) (d : List Nat) (i : Nat),
      ((minUpdateLoop p cIdx v t M e d).1).getD i 0 ≤ d.getD i 0 := by
  intro e
  induction e with
  | zero =>
    intro d i
    rw [minUpdateLoop_eq]
    rcases hstep : minUpdateStep p cIdx v t M 0 d with r | d'
    · show r.1.getD i 0 ≤ d.getD i 0
      rw [minUpdateStep_inl p cIdx v t M 0 d r hstep]
    · obtain ⟨_, _, _, _, hlt, hd'⟩ := minUpdateStep_inr p cIdx v t M 0 d d' hstep
      show d'.getD i 0 ≤ d.getD i 0
      rw [hd']
      exact min_write_le d _ 0 t i hlt
  | succ e' ih =>
    intro d i
    rw [minUpdateLoop_eq]
    rcases hstep : minUpdateStep p cIdx v t M (e' + 1) d with r | d'
    · show r.1.getD i 0 ≤ d.getD i 0
      rw [minUpdateStep_inl p cIdx v t M (e' + 1) d r hstep]
    · obtain ⟨_, _, _, _, hlt, hd'⟩ := minUpdateStep_inr p cIdx v t M (e' + 1) d d' hstep
      show ((minUpdateLoop p cIdx v t M e' d').1).getD i 0 ≤ d.getD i 0
      refine le_trans (ih d' i) ?_
      rw [hd']
      exact min_write_le d _ (e' + 1) t i hlt

/-- The continuation of a min walk below a written epoch `s` never touches
the cell of `(v, s)`. -/
theorem min_loop_preserves (p : Parameters) (cIdx v t M : Nat) (hC : 0 < p.chunkSize)
    (hH : p.chunkSize < p.historyLength) (s : Nat) (hs : p.chunkIndex s = cIdx) :
    ∀ (e : Nat) (d : List Nat), e < s →
      (∀ j, e < j → j < s → p.chunkIndex j = cIdx) →
      ((minUpdateLoop p cIdx v t M e d).1).getD (p.cellIndex v s) 0 =
        d.getD (p.cellIndex v s) 0 := by
  intro e
  induction e with
  | zero =>
    intro d hes hmid
    rw [minUpdateLoop_eq]
    rcases hstep : minUpdateStep p cIdx v t M 0 d with r | d'
    · show r.1.getD (p.cellIndex v s) 0 = d.getD (p.cellIndex v s) 0
      rw [minUpdateStep_inl p cIdx v t M 0 d r hstep]
    · obtain ⟨hg, _, _, _, _, hd'⟩ := minUpdateStep_inr p cIdx v t M 0 d d' hstep
      show d'.getD (p.cellIndex v s) 0 = d.getD (p.cellIndex v s) 0
      rw [hd']
      refine getD_set_ne d _ _ _ ?_
      refine cellIndex_ne_of_run p cIdx v hC hH hes ?_
      intro j h1 h2
      by_cases hj0 : j = 0
      · rw [hj0]; exact hg
      by_cases hjs : j = s
      · rw [hjs]; exact hs
      · exact hmid j (by omega) (by omega)
  | succ e' ih =>
    intro d hes hmid
    rw [minUpdateLoop_eq]
    rcases hstep : minUpdateStep p cIdx v t M (e' + 1) d with r | d'
    · show r.1.getD (p.cellIndex v s) 0 = d.getD (p.cellIndex v s) 0
      rw [minUpdateStep_inl p cIdx v t M (e' + 1) d r hstep]
    · obtain ⟨hg, _, _, _, _, hd'⟩ := minUpdateStep_inr p cIdx v t M (e' + 1) d d' hstep
      show ((minUpdateLoop p cIdx v t M e' d').1).getD (p.cellIndex v s) 0 =
        d.getD (p.cellIndex v s) 0
      rw [ih d' (by omega) ?hmid]
      case hmid =>
        intro j h1 h2
        by_cases hje : j = e' + 1
        · rw [hje]; exact hg
        · exact hmid j (by omega) h2
      rw [hd']
      refine getD_set_ne d _ _ _ ?_
      refine cellIndex_ne_of_run p cIdx v hC hH hes ?_
      intro j h1 h2
      by_cases hje : j = e' + 1
      · rw [hje]; exact hg
      by_cases hjs : j = s
      · rw [hjs]; exact hs
      · exact hmid j (by omega) (by omega)

/-- The max update walk preserves the chunk length. -/
theorem max_loop_length (p : Parameters) (cIdx v t cur : Nat) :
    ∀ (fuel e : Nat) (d : List Nat),
      ((maxUpdateLoop p cIdx v t cur fuel e d).1).length = d.length := by
  intro fuel
  induction fuel with
  | zero => intro e d; rfl
  | succ f ih =>
    intro e d
    rw [maxUpdateLoop_eq]
    rcases hstep : maxUpdateStep p cIdx v t cur e d with r | d'
    · show r.1.length = d.length
      rw [maxUpdateStep_inl p cIdx v t cur e d r hstep]
    · obtain ⟨_, _, _, _, hd'⟩ := maxUpdateStep_inr p cIdx v t cur e d d' hstep
      show ((maxUpdateLoop p cIdx v t cur f (e + 1) d').1).length = d.length
      rw [ih (e + 1) d', hd', List.length_set]

/-- The max update walk never lowers any cell, provided the distances it
writes fit in sixteen bits. -/
theorem max_loop_monotone (p : Parameters) (cIdx v t cur : Nat) :
    ∀ (fuel e : Nat) (d : List Nat), t ≤ e + 65535 → ∀ i : Nat,
      d.getD i 0 ≤ ((maxUpdateLoop p cIdx v t cur fuel e d).1).getD i 0 := by
  intro fuel
  induction fuel with
  | zero => intro e d _ i; exact le_refl _
  | succ f ih =>
    intro e d he i
    rw [maxUpdateLoop_eq]
    rcases hstep : maxUpdateStep p cIdx v t cur e d with r | d'
    · show d.getD i 0 ≤ r.1.getD i 0
      rw [maxUpdateStep_inl p cIdx v t cur e d r hstep]
    · obtain ⟨_, _, _, hlt, hd'⟩ := maxUpdateStep_inr p cIdx v t cur e d d' hstep
      show d.getD i 0 ≤ ((maxUpdateLoop p cIdx v t cur f (e + 1) d').1).getD i 0
      refine le_trans ?_ (ih (e + 1) d' (by omega) i)
      rw [hd']
      rcases getD_set_cases d (p.cellIndex v e) i ((t - e) % 65536) with hc | ⟨hc, hci, _⟩
      · rw [hc]
      · rw [hc, ← hci]
        have htr : (t - e) % 65536 = t - e := Nat.mod_eq_of_lt (by omega)
        omega

/-- The continuation of a max walk above a written epoch `s` never touches
the cell of `(v, s)`. -/
theorem max_loop_preserves (p : Parameters) (cIdx v t cur : Nat) (hC : 0 < p.chunkSize)
    (hH : p.chunkSize < p.historyLength) (s : Nat) (hs : p.chunkIndex s = cIdx) :
    ∀ (fuel e : Nat) (d : List Nat), s < e →
      (∀ j, s < j → j < e → p.chunkIndex j = cIdx) →
      ((maxUpdateLoop p cIdx v t cur fuel e d).1).getD (p.cellIndex v s) 0 =
        d.getD (p.cellIndex v s) 0 := by
  intro fuel
  induction fuel with
  | zero => intro e d _ _; rfl
  | succ f ih =>
    intro e d hse hmid
    rw [maxUpdateLoop_eq]
    rcases hstep : maxUpdateStep p cIdx v t cur e d with r | d'
    · show r.1.getD (p.cellIndex v s) 0 = d.getD (p.cellIndex v s) 0
      rw [maxUpdateStep_inl p cIdx v t cur e d r hstep]
    · obtain ⟨hg, _, _, _, hd'⟩ := maxUpdateStep_inr p cIdx v t cur e d d' hstep
      show ((maxUpdateLoop p cIdx v t cur f (e + 1) d').1).getD (p.cellIndex v s) 0 =
        d.getD (p.cellIndex v s) 0
      rw [ih (e + 1) d' (by omega) ?hmid]
      case hmid =>
        intro j h1 h2
        by_cases hje : j = e
        · rw [hje]; exact hg
        · exact hmid j h1 (by omega)
      rw [hd']
      refine getD_set_ne d _ _ _ ?_
      refine (cellIndex_ne_of_run p cIdx v hC hH hse ?_).symm
      intro j h1 h2
      by_cases hjs : j = s
      · rw [hjs]; exact hs
      by_cases hje : j = e
      · rw [hje]; exact hg
      · exact hmid j (by omega) (by omega)

/-- Re-running a min `Update` with the same arguments leaves the chunk data
unchanged. -/
theorem min_update_idem (p : Parameters) (cIdx cur v s t : Nat) (d : List Nat)
    (hC : 0 < p.chunkSize) (hK : 0 < p.validatorChunkSize)
    (hH : p.chunkSize < p.historyLength) (ht : t < s + 65536) :
    (minUpdate p cIdx cur v s t ((minUpdate p cIdx cur v s t d).1)).1 =
      (minUpdate p cIdx cur v s t d).1 := by
  unfold minUpdate
  rcases hstep : minUpdateStep p cIdx v t (minEpochFor p cur) s d with r | d₁
  · have hr := minUpdateStep_inl p cIdx v t (minEpochFor p cur) s d r hstep
    have h1 : minUpdateLoop p cIdx v t (minEpochFor p cur) s d = r := by
      rw [minUpdateLoop_eq]
      simp only [hstep]
    rw [h1, hr, h1, hr]
  · obtain ⟨hg, hM, hlen, het, hlt, hd₁⟩ :=
      minUpdateStep_inr p cIdx v t (minEpochFor p cur) s d d₁ hstep
    have htr : (t - s) % 65536 = t - s := Nat.mod_eq_of_lt (by omega)
    have hcell : p.cellIndex v s < d.length := by
      rw [hlen]
      exact cellIndex_lt p v s hC hK
    have hd₁cell : d₁.getD (p.cellIndex v s) 0 = t - s := by
      rw [hd₁, getD_set_self d _ _ hcell, htr]
    have hlen₁ : d₁.length = p.chunkSize * p.validatorChunkSize := by
      rw [hd₁, List.length_set]
      exact hlen
    rcases s with _ | s'
    · have h1 : minUpdateLoop p cIdx v t (minEpochFor p cur) 0 d =
          (d₁, Except.ok false) := by
        rw [minUpdateLoop_eq]
        simp only [hstep]
      rw [h1]
      have hstop : minUpdateStep p cIdx v t (minEpochFor p cur) 0 d₁ =
          Sum.inl (d₁, Except.ok false) := by
        refine minUpdateStep_eq_stop p cIdx v t (minEpochFor p cur) 0 d₁ hg hM hlen₁ ?_
        rw [hd₁cell]
        omega
      show (minUpdateLoop p cIdx v t (minEpochFor p cur) 0 d₁).1 = d₁
      rw [minUpdateLoop_eq, hstop]
    · have h1 : minUpdateLoop p cIdx v t (minEpochFor p cur) (s' + 1) d =
          minUpdateLoop p cIdx v t (minEpochFor p cur) s' d₁ := by
        rw [minUpdateLoop_eq]
        simp only [hstep]
      rw [h1]
      set d₂ := (minUpdateLoop p cIdx v t (minEpochFor p cur) s' d₁).1 with hd₂
      have hpres : d₂.getD (p.cellIndex v (s' + 1)) 0 = t - (s' + 1) := by
        rw [hd₂, min_loop_preserves p cIdx v t (minEpochFor p cur) hC hH (s' + 1) hg s' d₁
          (by omega) (fun j hj1 hj2 => absurd hj2 (by omega)), hd₁cell]
      have hlen₂ : d₂.length = p.chunkSize * p.validatorChunkSize := by
        rw [hd₂, min_loop_length]
        exact hlen₁
      have hstop : minUpdateStep p cIdx v t (minEpochFor p cur) (s' + 1) d₂ =
          Sum.inl (d₂, Except.ok false) := by
        refine minUpdateStep_eq_stop p cIdx v t (minEpochFor p cur) (s' + 1) d₂ hg hM hlen₂ ?_
        rw [hpres]
        omega
      show (minUpdateLoop p cIdx v t (minEpochFor p cur) (s' + 1) d₂).1 = d₂
      rw [minUpdateLoop_eq, hstop]

/-- Re-running a max `Update` with the same arguments leaves the chunk data
unchanged. -/
theorem max_update_idem (p : Parameters) (cIdx cur v s t : Nat) (d : List Nat)
    (hC : 0 < p.chunkSize) (hK : 0 < p.validatorChunkSize)
    (hH : p.chunkSize < p.historyLength) (ht : t < s + 65536) :
    (maxUpdate p cIdx cur v s t ((maxUpdate p cIdx cur v s t d).1)).1 =
      (maxUpdate p cIdx cur v s t d).1 := by
  unfold maxUpdate
  rcases hf : cur + 1 - s with _ | f
  · rfl
  · rcases hstep : maxUpdateStep p cIdx v t cur s d with r | d₁
    · have hr := maxUpdateStep_inl p cIdx v t cur s d r hstep
      have h1 : maxUpdateLoop p cIdx v t cur (f + 1) s d = r := by
        rw [maxUpdateLoop_eq]
        simp only [hstep]
      rw [h1, hr, h1, hr]
    · obtain ⟨hg, hcur, hlen, hlt, hd₁⟩ := maxUpdateStep_inr p cIdx v t cur s d d₁ hstep
      have htr : (t - s) % 65536 = t - s := Nat.mod_eq_of_lt (by omega)
      have hcell : p.cellIndex v s < d.length := by
        rw [hlen]
        exact cellIndex_lt p v s hC hK
      have hd₁cell : d₁.getD (p.cellIndex v s) 0 = t - s := by
        rw [hd₁, getD_set_self d _ _ hcell, htr]
      have hlen₁ : d₁.length = p.chunkSize * p.validatorChunkSize := by
        rw [hd₁, List.length_set]
        exact hlen
      have h1 : maxUpdateLoop p cIdx v t cur (f + 1) s d =
          maxUpdateLoop p cIdx v t cur f (s + 1) d₁ := by
        rw [maxUpdateLoop_eq]
        simp only [hstep]
      rw [h1]
      set d₂ := (maxUpdateLoop p cIdx v t cur f (s + 1) d₁).1 with hd₂
      have hpres : d₂.getD (p.cellIndex v s) 0 = t - s := by
        rw [hd₂, max_loop_preserves p cIdx v t cur hC hH s hg f (s + 1) d₁
          (by omega) (fun j hj1 hj2 => absurd hj1 (by omega)), hd₁cell]
      have hlen₂ : d₂.length = p.chunkSize * p.validatorChunkSize := by
        rw [hd₂, max_loop_length]
        exact hlen₁
      have hstop : maxUpdateStep p cIdx v t cur s d₂ = Sum.inl (d₂, Except.ok false) := by
        refine maxUpdateStep_eq_stop p cIdx v t cur s d₂ hg hcur hlen₂ ?_
        rw [hpres]
        omega
      show (maxUpdateLoop p cIdx v t cur (f + 1) s d₂).1 = d₂
      rw [maxUpdateLoop_eq, hstop]

/-- Looking a key up right after storing it yields the stored value. -/
theorem assocFind_assocSet_self {α : Type} :
    ∀ (l : List (Nat × α)) (k : Nat) (v : α), assocFind (assocSet l k v) k = some v
  | [], k, v => by simp [assocSet, assocFind]
  | (a, b) :: rest, k, v => by
    by_cases h : a = k
    · simp [assocSet, assocFind, h]
    · simp only [assocSet, assocFind, if_neg h]
      exact assocFind_assocSet_self rest k v

/-- Storing under one key leaves lookups of other keys unchanged. -/
theorem assocFind_assocSet_ne {α : Type} :
    ∀ (l : List (Nat × α)) (k k' : Nat) (v : α), k ≠ k' →
      assocFind (assocSet l k v) k' = assocFind l k'
  | [], k, k', v, h => by simp [assocSet, assocFind, h]
  | (a, b) :: rest, k, k', v, h => by
    by_cases ha : a = k
    · subst ha
      simp only [assocSet, if_pos rfl, assocFind, if_neg h]
    · simp only [assocSet, if_neg ha, assocFind]
      by_cases ha' : a = k'
      · simp [ha']
      · simp only [if_neg ha']
        exact assocFind_assocSet_ne rest k k' v h

/-- A successful lookup exhibits a member of the association list. -/
theorem assocFind_mem {α : Type} :
    ∀ (l : List (Nat × α)) (k : Nat) (v : α), assocFind l k = some v → (k, v) ∈ l
  | [], _, _, h => by simp [assocFind] at h
  | (a, b) :: rest, k, v, h => by
    by_cases ha : a = k
    · subst ha
      rw [assocFind, if_pos rfl] at h
      cases h
      exact List.mem_cons_self _ _
    · rw [assocFind, if_neg ha] at h
      exact List.mem_cons_of_mem _ (assocFind_mem rest k v h)

/-- Every member of `assocSet l k v` is the stored pair or a member of `l`. -/
theorem mem_assocSet {α : Type} :
    ∀ (l : List (Nat × α)) (k : Nat) (v : α) (x : Nat × α),
      x ∈ assocSet l k v → x = (k, v) ∨ x ∈ l
  | [], k, v, x, h => by
    simp [assocSet] at h
    exact Or.inl h
  | (a, b) :: rest, k, v, x, h => by
    by_cases ha : a = k
    · rw [assocSet, if_pos ha] at h
      rcases List.mem_cons.mp h with h1 | h1
      · exact Or.inl h1
      · exact Or.inr (List.mem_cons_of_mem _ h1)
    · rw [assocSet, if_neg ha] at h
      rcases List.mem_cons.mp h with h1 | h1
      · exact Or.inr (h1 ▸ List.mem_cons_self _ _)
      · rcases mem_assocSet rest k v x h1 with h2 | h2
        · exact Or.inl h2
        · exact Or.inr (List.mem_cons_of_mem _ h2)

/-- Everything emitted by the deduplicating scan comes from its input. -/
theorem dedupTxs_subset (h : Tx → List Nat) :
    ∀ (L : List Tx) (seen : List (List Nat)) (tx : Tx),
      tx ∈ InclusionLists.dedupTxs h L seen → tx ∈ L
  | [], seen, tx, hmem => by simp [InclusionLists.dedupTxs] at hmem
  | t :: rest, seen, tx, hmem => by
    rw [InclusionLists.dedupTxs] at hmem
    by_cases hs : h t ∈ seen
    · rw [if_pos hs] at hmem
      exact List.mem_cons_of_mem _ (dedupTxs_subset h rest seen tx hmem)
    · rw [if_neg hs] at hmem
      rcases List.mem_cons.mp hmem with h1 | h1
      · exact h1 ▸ List.mem_cons_self _ _
      · exact List.mem_cons_of_mem _ (dedupTxs_subset h rest (h t :: seen) tx h1)

/-- The deduplicating scan never emits a hash it has seen, and no two of
its outputs share a hash. -/
theorem dedupTxs_fresh_pairwise (h : Tx → List Nat) :
    ∀ (L : List Tx) (seen : List (List Nat)),
      (∀ tx ∈ InclusionLists.dedupTxs h L seen, h tx ∉ seen) ∧
      (InclusionLists.dedupTxs h L seen).Pairwise (fun a b => h a ≠ h b)
  | [], seen => by simp [InclusionLists.dedupTxs]
  | t :: rest, seen => by
    rw [InclusionLists.dedupTxs]
    by_cases hs : h t ∈ seen
    · rw [if_pos hs]
      exact dedupTxs_fresh_pairwise h rest seen
    · rw [if_neg hs]
      obtain ⟨ih1, ih2⟩ := dedupTxs_fresh_pairwise h rest (h t :: seen)
      refine ⟨?_, ?_⟩
      · intro tx hmem
        rcases List.mem_cons.mp hmem with h1 | h1
        · rw [h1]; exact hs
        · intro hc
          exact ih1 tx h1 (List.mem_cons_of_mem _ hc)
      · refine List.Pairwise.cons ?_ ih2
        intro y hy
        intro hc
        exact ih1 y hy (hc ▸ List.mem_cons_self _ _)

/-- A list whose members have pairwise distinct hashes holds each
transaction at most once. -/
theorem count_le_one_of_pairwise_hash (h : Tx → List Nat) :
    ∀ L : List Tx, L.Pairwise (fun a b => h a ≠ h b) → ∀ tx : Tx, L.count tx ≤ 1
  | [], _, tx => by simp
  | x :: rest, hp, tx => by
    obtain ⟨hx, hrest⟩ := List.pairwise_cons.mp hp
    rw [List.count_cons]
    by_cases he : x = tx
    · subst he
      have hz : rest.count x = 0 := by
        rw [List.count_eq_zero]
        intro hc
        exact hx x hc rfl
      simp [hz]
    · have := count_le_one_of_pairwise_hash h rest hrest tx
      simp only [beq_iff_eq]
      rw [if_neg he]
      omega

/-- Byte-lexicographic comparison is total. -/
theorem rootLe_total : ∀ a b : List Nat, rootLe a b = true ∨ rootLe b a = true
  | [], _ => Or.inl rfl
  | _ :: _, [] => Or.inr rfl
  | x :: xs, y :: ys => by
    rcases Nat.lt_trichotomy x y with h | h | h
    · left
      unfold rootLe
      rw [if_pos h]
    · subst h
      rcases rootLe_total xs ys with h2 | h2
      · left
        unfold rootLe
        rw [if_neg (Nat.lt_irrefl x), if_neg (Nat.lt_irrefl x)]
        exact h2
      · right
        unfold rootLe
        rw [if_neg (Nat.lt_irrefl x), if_neg (Nat.lt_irrefl x)]
        exact h2
    · right
      unfold rootLe
      rw [if_pos h]

/-- The evidence builder orders its two attestations by ascending content
root. -/
theorem createAttesterSlashing_root_ordered (r a : AttestationWrapper) :
    rootLe (createAttesterSlashing r a).firstAttestation.dataRoot
      (createAttesterSlashing r a).secondAttestation.dataRoot = true := by
  unfold createAttesterSlashing
  by_cases h : rootLe r.dataRoot a.dataRoot = true
  · simp only [h, if_true]
    show rootLe (upgradeAttestation _ r).dataRoot (upgradeAttestation _ a).dataRoot = true
    unfold upgradeAttestation
    split <;> split <;> simpa using h
  · rw [Bool.not_eq_true] at h
    simp only [h, if_false]
    rcases rootLe_total r.dataRoot a.dataRoot with h2 | h2
    · rw [h2] at h; cases h
    · show rootLe (upgradeAttestation _ a).dataRoot (upgradeAttestation _ r).dataRoot = true
      unfold upgradeAttestation
      split <;> split <;> simpa using h2

/-- The evidence builder tags the evidence and both of its attestations
with the newer of the two wire-format versions. -/
theorem createAttesterSlashing_version_eq (r a : AttestationWrapper) :
    (createAttesterSlashing r a).version = max r.version a.version ∧
    (createAttesterSlashing r a).firstAttestation.version = max r.version a.version ∧
    (createAttesterSlashing r a).secondAttestation.version = max r.version a.version := by
  have hup : ∀ x : AttestationWrapper, x.version ≤ max r.version a.version →
      (upgradeAttestation (max r.version a.version) x).version = max r.version a.version := by
    intro x hx
    unfold upgradeAttestation
    split
    · rfl
    · omega
  unfold createAttesterSlashing
  split
  · exact ⟨rfl, hup r (le_max_left _ _), hup a (le_max_right _ _)⟩
  · exact ⟨rfl, hup a (le_max_right _ _), hup r (le_max_left _ _)⟩

/-- Inversion of a positive min-variant slashability check: the evidence is
built by `createAttesterSlashing` from a record fetched from the store. -/
theorem checkSlashableMin_ok_some (p : Parameters) (store : RecordStore) (v : Nat)
    (d : List Nat) (att : AttestationWrapper) (s : AttesterSlashing)
    (h : checkSlashableMin p store v d att = Except.ok (some s)) :
    ∃ rec minTarget, store v minTarget = some rec ∧ s = createAttesterSlashing rec att := by
  unfold checkSlashableMin at h
  rcases hread : chunkDataAtEpoch p d v att.sourceEpoch with m | mt <;>
    simp only [hread] at h
  · exact Except.noConfusion h
  by_cases hn : d.getD (p.cellIndex v att.sourceEpoch) 0 = minNeutralElement
  · rw [if_pos hn] at h
    exact Option.noConfusion (Except.ok.inj h)
  rw [if_neg hn] at h
  by_cases hlt : mt < att.targetEpoch
  · rw [if_pos hlt] at h
    rcases hst : store v mt with _ | rec <;> simp only [hst] at h
    · exact Option.noConfusion (Except.ok.inj h)
    · exact ⟨rec, mt, hst, (Option.some.inj (Except.ok.inj h)).symm⟩
  · rw [if_neg hlt] at h
    exact Option.noConfusion (Except.ok.inj h)

/-- Inversion of a positive max-variant slashability check. -/
theorem checkSlashableMax_ok_some (p : Parameters) (store : RecordStore) (v : Nat)
    (d : List Nat) (att : AttestationWrapper) (s : AttesterSlashing)
    (h : checkSlashableMax p store v d att = Except.ok (some s)) :
    ∃ rec maxTarget, store v maxTarget = some rec ∧ s = createAttesterSlashing rec att := by
  unfold checkSlashableMax at h
  rcases hread : chunkDataAtEpoch p d v att.sourceEpoch with m | mt <;>
    simp only [hread] at h
  · exact Except.noConfusion h
  by_cases hn : d.getD (p.cellIndex v att.sourceEpoch) 0 = maxNeutralElement
  · rw [if_pos hn] at h
    exact Option.noConfusion (Except.ok.inj h)
  rw [if_neg hn] at h
  by_cases hlt : att.targetEpoch < mt
  · rw [if_pos hlt] at h
    rcases hst : store v mt with _ | rec <;> simp only [hst] at h
    · exact Option.noConfusion (Except.ok.inj h)
    · exact ⟨rec, mt, hst, (Option.some.inj (Except.ok.inj h)).symm⟩
  · rw [if_neg hlt] at h
    exact Option.noConfusion (Except.ok.inj h)

/-- **C2.** `CheckSlashable` evidence scenario: with `(source=1,target=2)`
recorded via `Update` in an empty Min chunk, the surrounding vote
`(source=0,target=3)` by the same validator is not slashable (and not an
error) while the store holds no record at the implied min-target epoch, and
becomes slashing evidence once the `(1,2)` record is saved, with the two
attestations ordered by ascending content root (the byte-lexicographically
smaller root is the first attestation); mirrored for the Max variant with a
`(source=0,target=3)` record and a surrounded `(source=1,target=2)` vote. -/
theorem c2_check_slashable_evidence_scenarios :
    (∀ (p : Parameters) (store : RecordStore) (v : Nat) (d : List Nat)
        (att : AttestationWrapper) (s : AttesterSlashing),
      checkSlashableMin p store v d att = Except.ok (some s) →
      rootLe s.firstAttestation.dataRoot s.secondAttestation.dataRoot = true) ∧
    (∀ (p : Parameters) (store : RecordStore) (v : Nat) (d : List Nat)
        (att : AttestationWrapper) (s : AttesterSlashing),
      checkSlashableMax p store v d att = Except.ok (some s) →
      rootLe s.firstAttestation.dataRoot s.secondAttestation.dataRoot = true) ∧
    (minUpdate ⟨3, 2, 3⟩ 0 2 1 2 2 (emptyMinSpanChunksSlice ⟨3, 2, 3⟩) =
      ([65535, 65535, 65535, 2, 1, 0], Except.ok false) ∧
     checkSlashableMin ⟨3, 2, 3⟩ (fun _ _ => none) 1 [65535, 65535, 65535, 2, 1, 0]
        ⟨phase0Version, 0, 3, [7]⟩ = Except.ok none ∧
     checkSlashableMin ⟨3, 2, 3⟩
        (fun v e => if v = 1 ∧ e = 2 then some ⟨phase0Version, 1, 2, [1]⟩ else none) 1
        [65535, 65535, 65535, 2, 1, 0] ⟨phase0Version, 0, 3, [7]⟩ =
      Except.ok (some ⟨phase0Version, ⟨phase0Version, 1, 2, [1]⟩, ⟨phase0Version, 0, 3, [7]⟩⟩) ∧
     checkSlashableMin ⟨3, 2, 3⟩
        (fun v e => if v = 1 ∧ e = 2 then some ⟨phase0Version, 1, 2, [1]⟩ else none) 1
        [65535, 65535, 65535, 2, 1, 0] ⟨phase0Version, 0, 3, [0]⟩ =
      Except.ok (some ⟨phase0Version, ⟨phase0Version, 0, 3, [0]⟩, ⟨phase0Version, 1, 2, [1]⟩⟩)) ∧
    (maxUpdate ⟨4, 2, 4⟩ 0 3 1 0 3 (emptyMaxSpanChunksSlice ⟨4, 2, 4⟩) =
      ([0, 0, 0, 0, 3, 2, 1, 0], Except.ok false) ∧
     checkSlashableMax ⟨4, 2, 4⟩ (fun _ _ => none) 1 [0, 0, 0, 0, 3, 2, 1, 0]
        ⟨phase0Version, 1, 2, [7]⟩ = Except.ok none ∧
     checkSlashableMax ⟨4, 2, 4⟩
        (fun v e => if v = 1 ∧ e = 3 then some ⟨phase0Version, 0, 3, [1]⟩ else none) 1
        [0, 0, 0, 0, 3, 2, 1, 0] ⟨phase0Version, 1, 2, [7]⟩ =
      Except.ok (some ⟨phase0Version, ⟨phase0Version, 0, 3, [1]⟩, ⟨phase0Version, 1, 2, [7]⟩⟩) ∧
     checkSlashableMax ⟨4, 2, 4⟩
        (fun v e => if v = 1 ∧ e = 3 then some ⟨phase0Version, 0, 3, [1]⟩ else none) 1
        [0, 0, 0, 0, 3, 2, 1, 0] ⟨phase0Version, 1, 2, [0]⟩ =
      Except.ok (some ⟨phase0Version, ⟨phase0Version, 1, 2, [0]⟩, ⟨phase0Version, 0, 3, [1]⟩⟩)) := by
  refine ⟨?_, ?_, by refine ⟨by decide, by decide, by decide, by decide⟩,
    by refine ⟨by decide, by decide, by decide, by decide⟩⟩
  · intro p store v d att s h
    obtain ⟨rec, mt, _, hs⟩ := checkSlashableMin_ok_some p store v d att s h
    rw [hs]
    exact createAttesterSlashing_root_ordered rec att
  · intro p store v d att s h
    obtain ⟨rec, mt, _, hs⟩ := checkSlashableMax_ok_some p store v d att s h
    rw [hs]
    exact createAttesterSlashing_root_ordered rec att

/-- Witness for C2: the root-ordering conjuncts applied at the concrete
slashing evidence returned in the min and max scenarios. -/
theorem c2_check_slashable_evidence_scenarios_witness :
    rootLe ((⟨phase0Version, ⟨phase0Version, 1, 2, [1]⟩,
        ⟨phase0Version, 0, 3, [7]⟩⟩ : AttesterSlashing)).firstAttestation.dataRoot
      ((⟨phase0Version, ⟨phase0Version, 1, 2, [1]⟩,
        ⟨phase0Version, 0, 3, [7]⟩⟩ : AttesterSlashing)).secondAttestation.dataRoot = true ∧
    rootLe ((⟨phase0Version, ⟨phase0Version, 0, 3, [1]⟩,
        ⟨phase0Version, 1, 2, [7]⟩⟩ : AttesterSlashing)).firstAttestation.dataRoot
      ((⟨phase0Version, ⟨phase0Version, 0, 3, [1]⟩,
        ⟨phase0Version, 1, 2, [7]⟩⟩ : AttesterSlashing)).secondAttestation.dataRoot = true :=
  ⟨c2_check_slashable_evidence_scenarios.1 ⟨3, 2, 3⟩
      (fun v e => if v = 1 ∧ e = 2 then some ⟨phase0Version, 1, 2, [1]⟩ else none) 1
      [65535, 65535, 65535, 2, 1, 0] ⟨phase0Version, 0, 3, [7]⟩ _ (by decide),
   c2_check_slashable_evidence_scenarios.2.1 ⟨4, 2, 4⟩
      (fun v e => if v = 1 ∧ e = 3 then some ⟨phase0Version, 0, 3, [1]⟩ else none) 1
      [0, 0, 0, 0, 3, 2, 1, 0] ⟨phase0Version, 1, 2, [7]⟩ _ (by decide)⟩

/-- **C6.** Version promotion: whenever `CheckSlashable` builds slashing
evidence, the evidence is tagged with the newer of the two wire-format
versions, both attestations carry that version, and the promotion leaves
the indexed data (epochs and content root) unchanged; concretely, a stored
Phase0 record combined with an Electra attestation yields Electra-typed
evidence for both the Min and the Max variants. -/
theorem c6_version_promotion :
    (∀ (p : Parameters) (store : RecordStore) (v : Nat) (d : List Nat)
        (att : AttestationWrapper) (s : AttesterSlashing),
      checkSlashableMin p store v d att = Except.ok (some s) →
      ∃ rec minTarget, store v minTarget = some rec ∧ s = createAttesterSlashing rec att ∧
        s.version = max rec.version att.version ∧
        s.firstAttestation.version = s.version ∧ s.secondAttestation.version = s.version) ∧
    (∀ (p : Parameters) (store : RecordStore) (v : Nat) (d : List Nat)
        (att : AttestationWrapper) (s : AttesterSlashing),
      checkSlashableMax p store v d att = Except.ok (some s) →
      ∃ rec maxTarget, store v maxTarget = some rec ∧ s = createAttesterSlashing rec att ∧
        s.version = max rec.version att.version ∧
        s.firstAttestation.version = s.version ∧ s.secondAttestation.version = s.version) ∧
    (∀ (ver : Nat) (a : AttestationWrapper),
      (upgradeAttestation ver a).sourceEpoch = a.sourceEpoch ∧
      (upgradeAttestation ver a).targetEpoch = a.targetEpoch ∧
      (upgradeAttestation ver a).dataRoot = a.dataRoot) ∧
    checkSlashableMin ⟨3, 2, 3⟩
        (fun v e => if v = 1 ∧ e = 2 then some ⟨phase0Version, 1, 2, [1]⟩ else none) 1
        [65535, 65535, 65535, 2, 1, 0] ⟨electraVersion, 0, 3, [7]⟩ =
      Except.ok (some ⟨electraVersion, ⟨electraVersion, 1, 2, [1]⟩,
        ⟨electraVersion, 0, 3, [7]⟩⟩) ∧
    checkSlashableMax ⟨4, 2, 4⟩
        (fun v e => if v = 1 ∧ e = 3 then some ⟨phase0Version, 0, 3, [1]⟩ else none) 1
        [0, 0, 0, 0, 3, 2, 1, 0] ⟨electraVersion, 1, 2, [7]⟩ =
      Except.ok (some ⟨electraVersion, ⟨electraVersion, 0, 3, [1]⟩,
        ⟨electraVersion, 1, 2, [7]⟩⟩) := by
  refine ⟨?_, ?_, ?_, by decide, by decide⟩
  · intro p store v d att s h
    obtain ⟨rec, mt, hst, hs⟩ := checkSlashableMin_ok_some p store v d att s h
    obtain ⟨hv, hv1, hv2⟩ := createAttesterSlashing_version_eq rec att
    exact ⟨rec, mt, hst, hs, by rw [hs]; exact hv, by rw [hs, hv, hv1],
      by rw [hs, hv, hv2]⟩
  · intro p store v d att s h
    obtain ⟨rec, mt, hst, hs⟩ := checkSlashableMax_ok_some p store v d att s h
    obtain ⟨hv, hv1, hv2⟩ := createAttesterSlashing_version_eq rec att
    exact ⟨rec, mt, hst, hs, by rw [hs]; exact hv, by rw [hs, hv, hv1],
      by rw [hs, hv, hv2]⟩
  · intro ver a
    unfold upgradeAttestation
    split <;> exact ⟨rfl, rfl, rfl⟩

/-- Witness for C6: the general promotion conjunct applied at the concrete
Phase0-record–Electra-attestation min scenario. -/
theorem c6_version_promotion_witness :
    ∃ rec minTarget,
      (fun (v e : Nat) => if v = 1 ∧ e = 2 then
          some (⟨phase0Version, 1, 2, [1]⟩ : AttestationWrapper) else none) 1 minTarget =
        some rec ∧
      (⟨electraVersion, ⟨electraVersion, 1, 2, [1]⟩,
        ⟨electraVersion, 0, 3, [7]⟩⟩ : AttesterSlashing) =
        createAttesterSlashing rec ⟨electraVersion, 0, 3, [7]⟩ ∧
      (⟨electraVersion, ⟨electraVersion, 1, 2, [1]⟩,
        ⟨electraVersion, 0, 3, [7]⟩⟩ : AttesterSlashing).version =
        max rec.version electraVersion ∧
      (⟨electraVersion, ⟨electraVersion, 1, 2, [1]⟩,
        ⟨electraVersion, 0, 3, [7]⟩⟩ : AttesterSlashing).firstAttestation.version =
        (⟨electraVersion, ⟨electraVersion, 1, 2, [1]⟩,
          ⟨electraVersion, 0, 3, [7]⟩⟩ : AttesterSlashing).version ∧
      (⟨electraVersion, ⟨electraVersion, 1, 2, [1]⟩,
        ⟨electraVersion, 0, 3, [7]⟩⟩ : AttesterSlashing).secondAttestation.version =
        (⟨electraVersion, ⟨electraVersion, 1, 2, [1]⟩,
          ⟨electraVersion, 0, 3, [7]⟩⟩ : AttesterSlashing).version := by
  have h := c6_version_promotion.1 ⟨3, 2, 3⟩
    (fun v e => if v = 1 ∧ e = 2 then some ⟨phase0Version, 1, 2, [1]⟩ else none) 1
    [65535, 65535, 65535, 2, 1, 0] ⟨electraVersion, 0, 3, [7]⟩
    ⟨electraVersion, ⟨electraVersion, 1, 2, [1]⟩, ⟨electraVersion, 0, 3, [7]⟩⟩ (by decide)
  obtain ⟨rec, mt, h1, h2, h3, h4, h5⟩ := h
  exact ⟨rec, mt, h1, h2, h3, h4, h5⟩

/-- **C4.** `NextChunkStartEpoch` is a pure function of
`(chunk_size, history_length, start_epoch)` and, within the retained
window, rounds to the adjacent chunk boundary: the Max variant's forward
walk continues at the next multiple of `chunk_size` strictly above
`start_epoch`, and the Min variant's backward walk continues at the epoch
just below the current chunk's first epoch (clamped to the last epoch of
chunk zero). Pinned at the concrete inputs of the repository's tests. -/
theorem c4_next_chunk_start_epoch (p q : Parameters) (startEpoch : Nat)
    (hC : 0 < p.chunkSize) (hs : startEpoch < p.historyLength)
    (hqC : q.chunkSize = p.chunkSize) (hqH : q.historyLength = p.historyLength) :
    (minNextChunkStartEpoch q startEpoch = minNextChunkStartEpoch p startEpoch ∧
     maxNextChunkStartEpoch q startEpoch = maxNextChunkStartEpoch p startEpoch) ∧
    maxNextChunkStartEpoch p startEpoch = p.chunkSize * (startEpoch / p.chunkSize + 1) ∧
    (startEpoch < maxNextChunkStartEpoch p startEpoch ∧
     p.chunkSize ∣ maxNextChunkStartEpoch p startEpoch ∧
     maxNextChunkStartEpoch p startEpoch ≤ startEpoch + p.chunkSize) ∧
    (0 < startEpoch / p.chunkSize →
      minNextChunkStartEpoch p startEpoch + 1 = p.chunkSize * (startEpoch / p.chunkSize)) ∧
    (startEpoch / p.chunkSize = 0 →
      minNextChunkStartEpoch p startEpoch = p.chunkSize - 1) ∧
    minNextChunkStartEpoch ⟨3, 0, 4096⟩ 0 = 2 ∧
    minNextChunkStartEpoch ⟨3, 0, 4096⟩ 3 = 2 ∧
    minNextChunkStartEpoch ⟨3, 0, 4096⟩ 8 = 5 ∧
    maxNextChunkStartEpoch ⟨3, 0, 4⟩ 0 = 3 ∧
    maxNextChunkStartEpoch ⟨3, 0, 4⟩ 3 = 6 := by
  have hmod : startEpoch % p.historyLength = startEpoch := Nat.mod_eq_of_lt hs
  have hdm := Nat.div_add_mod startEpoch p.chunkSize
  have hml : startEpoch % p.chunkSize < p.chunkSize := Nat.mod_lt _ hC
  have hmax : maxNextChunkStartEpoch p startEpoch =
      (startEpoch / p.chunkSize + 1) * p.chunkSize := by
    unfold maxNextChunkStartEpoch Parameters.firstEpoch Parameters.chunkIndex
    rw [hmod]
  have hmin : minNextChunkStartEpoch p startEpoch =
      (startEpoch / p.chunkSize - 1) * p.chunkSize + p.chunkSize - 1 := by
    unfold minNextChunkStartEpoch Parameters.lastEpoch Parameters.firstEpoch
      Parameters.chunkIndex
    rw [hmod]
  have hbr : (startEpoch / p.chunkSize + 1) * p.chunkSize =
      p.chunkSize * (startEpoch / p.chunkSize) + p.chunkSize := by ring
  refine ⟨⟨?_, ?_⟩, ?_, ⟨?_, ?_, ?_⟩, ?_, ?_,
    by decide, by decide, by decide, by decide, by decide⟩
  · simp [minNextChunkStartEpoch, Parameters.lastEpoch, Parameters.firstEpoch,
      Parameters.chunkIndex, hqC, hqH]
  · simp [maxNextChunkStartEpoch, Parameters.firstEpoch, Parameters.chunkIndex, hqC, hqH]
  · rw [hmax]; ring
  · rw [hmax]; omega
  · rw [hmax]; exact ⟨startEpoch / p.chunkSize + 1, by ring⟩
  · rw [hmax]; omega
  · intro hpos
    rw [hmin]
    have e1 : (startEpoch / p.chunkSize - 1) * p.chunkSize =
        p.chunkSize * (startEpoch / p.chunkSize - 1) := by ring
    have e2 : p.chunkSize * (startEpoch / p.chunkSize) =
        p.chunkSize * (startEpoch / p.chunkSize - 1) + p.chunkSize := by
      have h3 : startEpoch / p.chunkSize = startEpoch / p.chunkSize - 1 + 1 := by omega
      calc p.chunkSize * (startEpoch / p.chunkSize)
          = p.chunkSize * (startEpoch / p.chunkSize - 1 + 1) := by rw [← h3]
        _ = p.chunkSize * (startEpoch / p.chunkSize - 1) + p.chunkSize := by ring
    omega
  · intro hz
    rw [hmin, hz]
    simp

/-- Witness for C4 at the repository's test inputs. -/
theorem c4_next_chunk_start_epoch_witness :
    maxNextChunkStartEpoch ⟨3, 0, 4⟩ 3 = 3 * (3 / 3 + 1) ∧
    minNextChunkStartEpoch ⟨3, 0, 4096⟩ 3 + 1 = 3 * (3 / 3) ∧
    minNextChunkStartEpoch ⟨3, 0, 4096⟩ 0 = 3 - 1 :=
  ⟨(c4_next_chunk_start_epoch ⟨3, 0, 4⟩ ⟨3, 0, 4⟩ 3 (by decide) (by decide) rfl rfl).2.1,
   (c4_next_chunk_start_epoch ⟨3, 0, 4096⟩ ⟨3, 0, 4096⟩ 3 (by decide) (by decide) rfl
      rfl).2.2.2.1 (by decide),
   (c4_next_chunk_start_epoch ⟨3, 0, 4096⟩ ⟨3, 0, 4096⟩ 0 (by decide) (by decide) rfl
      rfl).2.2.2.2.1 (by decide)⟩

/-- The min walk reports `keepGoing = true` exactly when every epoch from
the start down to some boundary epoch `b` outside the chunk but above the
retention floor lies in the chunk and is written (no early stop), with `b`
still to be processed in a previous chunk. -/
theorem min_keep_going_iff (p : Parameters) (cIdx v t M : Nat)
    (hC : 0 < p.chunkSize) (hH : p.chunkSize < p.historyLength) :
    ∀ (e : Nat) (d : List Nat), d.length = p.chunkSize * p.validatorChunkSize →
      ((minUpdateLoop p cIdx v t M e d).2 = Except.ok true ↔
        ∃ b, b ≤ e ∧ M ≤ b ∧ p.chunkIndex b ≠ cIdx ∧
          (∀ j, b < j → j ≤ e → p.chunkIndex j = cIdx) ∧
          (∀ j, b < j → j ≤ e → j ≤ t ∧ t < j + d.getD (p.cellIndex v j) 0)) := by
  intro e
  induction e with
  | zero =>
    intro d hlen
    rw [minUpdateLoop_eq]
    rcases hstep : minUpdateStep p cIdx v t M 0 d with r | d'
    · show r.2 = Except.ok true ↔ _
      rcases minUpdateStep_inl_cases p cIdx v t M 0 d r hstep with
        ⟨hng, hr2⟩ | ⟨hg, msg, hr2⟩ | ⟨hg, _, hnlt, hr2⟩
      · rw [hr2]
        constructor
        · intro hok
          have hprop := of_decide_eq_true (Except.ok.inj hok)
          exact ⟨0, Nat.le_refl 0, hprop.2, hprop.1,
            fun j h1 h2 => absurd h2 (by omega), fun j h1 h2 => absurd h2 (by omega)⟩
        · rintro ⟨b, hb0, hMb, hbne, _, _⟩
          have hb' : b = 0 := by omega
          subst hb'
          rw [decide_eq_true (show p.chunkIndex 0 ≠ cIdx ∧ M ≤ 0 from ⟨hbne, hMb⟩)]
      · rw [hr2]
        constructor
        · intro hok
          exact Except.noConfusion hok
        · rintro ⟨b, hb0, hMb, hbne, _, _⟩
          have hb' : b = 0 := by omega
          subst hb'
          exact absurd hg.1 hbne
      · rw [hr2]
        constructor
        · intro hok
          cases Except.ok.inj hok
        · rintro ⟨b, hb0, hMb, hbne, _, _⟩
          have hb' : b = 0 := by omega
          subst hb'
          exact absurd hg.1 hbne
    · obtain ⟨hg, hM0, _, _, _, _⟩ := minUpdateStep_inr p cIdx v t M 0 d d' hstep
      show (d', (Except.ok false : Except String Bool)).2 = Except.ok true ↔ _
      constructor
      · intro hok
        cases Except.ok.inj hok
      · rintro ⟨b, hb0, hMb, hbne, _, _⟩
        have hb' : b = 0 := by omega
        subst hb'
        exact absurd hg hbne
  | succ e' ih =>
    intro d hlen
    rw [minUpdateLoop_eq]
    rcases hstep : minUpdateStep p cIdx v t M (e' + 1) d with r | d'
    · show r.2 = Except.ok true ↔ _
      rcases minUpdateStep_inl_cases p cIdx v t M (e' + 1) d r hstep with
        ⟨hng, hr2⟩ | ⟨hg, msg, hr2⟩ | ⟨hg, _, hnlt, hr2⟩
      · rw [hr2]
        constructor
        · intro hok
          have hprop := of_decide_eq_true (Except.ok.inj hok)
          exact ⟨e' + 1, Nat.le_refl _, hprop.2, hprop.1,
            fun j h1 h2 => absurd h2 (by omega), fun j h1 h2 => absurd h2 (by omega)⟩
        · rintro ⟨b, hbe, hMb, hbne, hjall, hjcond⟩
          rcases Nat.lt_or_ge b (e' + 1) with hblt | hbge
          · exact absurd ⟨hjall (e' + 1) (by omega) (Nat.le_refl _), by omega⟩ hng
          · have hbe' : b = e' + 1 := by omega
            subst hbe'
            rw [decide_eq_true (show p.chunkIndex (e' + 1) ≠ cIdx ∧ M ≤ e' + 1 from
              ⟨hbne, hMb⟩)]
      · rw [hr2]
        constructor
        · intro hok
          exact Except.noConfusion hok
        · rintro ⟨b, hbe, hMb, hbne, hjall, hjcond⟩
          rcases Nat.lt_or_ge b (e' + 1) with hblt | hbge
          · have hj := hjcond (e' + 1) (by omega) (Nat.le_refl _)
            have heq := minUpdateStep_eq_inr p cIdx v t M (e' + 1) d hg.1 hg.2 hlen
              hj.1 hj.2
            rw [hstep] at heq
            exact Sum.noConfusion heq
          · have hbe' : b = e' + 1 := by omega
            subst hbe'
            exact absurd hg.1 hbne
      · rw [hr2]
        constructor
        · intro hok
          cases Except.ok.inj hok
        · rintro ⟨b, hbe, hMb, hbne, hjall, hjcond⟩
          rcases Nat.lt_or_ge b (e' + 1) with hblt | hbge
          · have hj := hjcond (e' + 1) (by omega) (Nat.le_refl _)
            exact absurd hj.2 hnlt
          · have hbe' : b = e' + 1 := by omega
            subst hbe'
            exact absurd hg.1 hbne
    · obtain ⟨hg, hMe, _, het, hlt, hd'⟩ := minUpdateStep_inr p cIdx v t M (e' + 1) d d' hstep
      show (minUpdateLoop p cIdx v t M e' d').2 = Except.ok true ↔ _
      rw [ih d' (by rw [hd', List.length_set]; exact hlen)]
      constructor
      · rintro ⟨b, hbe, hMb, hbne, hjall, hjcond⟩
        refine ⟨b, by omega, hMb, hbne, ?_, ?_⟩
        · intro j h1 h2
          by_cases hj : j = e' + 1
          · rw [hj]; exact hg
          · exact hjall j h1 (by omega)
        · intro j h1 h2
          by_cases hj : j = e' + 1
          · subst hj
            exact ⟨het, hlt⟩
          · have hc := hjcond j h1 (by omega)
            have hne : p.cellIndex v j ≠ p.cellIndex v (e' + 1) := by
              refine cellIndex_ne_of_run p cIdx v hC hH (show j < e' + 1 by omega) ?_
              intro x hx1 hx2
              by_cases hx : x = e' + 1
              · rw [hx]; exact hg
              · exact hjall x (by omega) (by omega)
            refine ⟨hc.1, ?_⟩
            have hgd : d'.getD (p.cellIndex v j) 0 = d.getD (p.cellIndex v j) 0 := by
              rw [hd']
              exact getD_set_ne d _ _ _ (Ne.symm hne)
            rw [← hgd]
            exact hc.2
      · rintro ⟨b, hbe, hMb, hbne, hjall, hjcond⟩
        have hbe' : b ≤ e' := by
          rcases Nat.lt_or_ge b (e' + 1) with h | h
          · omega
          · have hb1 : b = e' + 1 := by omega
            subst hb1
            exact absurd hg hbne
        refine ⟨b, hbe', hMb, hbne, fun j h1 h2 => hjall j h1 (by omega), ?_⟩
        intro j h1 h2
        have hc := hjcond j h1 (by omega)
        refine ⟨hc.1, ?_⟩
        have hne : p.cellIndex v j ≠ p.cellIndex v (e' + 1) := by
          refine cellIndex_ne_of_run p cIdx v hC hH (show j < e' + 1 by omega) ?_
          intro x hx1 hx2
          by_cases hx : x = e' + 1
          · rw [hx]; exact hg
          · exact hjall x (by omega) (by omega)
        have hgd : d'.getD (p.cellIndex v j) 0 = d.getD (p.cellIndex v j) 0 := by
          rw [hd']
          exact getD_set_ne d _ _ _ (Ne.symm hne)
        rw [hgd]
        exact hc.2

/-- The max walk reports `keepGoing = true` exactly when every epoch from
the start up to some boundary epoch `b` outside the chunk but at or below
the current epoch lies in the chunk and is written (no early stop), with
`b` still to be processed in a next chunk. -/
theorem max_keep_going_iff (p : Parameters) (cIdx v t cur : Nat)
    (hC : 0 < p.chunkSize) (hH : p.chunkSize < p.historyLength) :
    ∀ (fuel e : Nat) (d : List Nat), cur + 1 ≤ e + fuel →
      d.length = p.chunkSize * p.validatorChunkSize →
      ((maxUpdateLoop p cIdx v t cur fuel e d).2 = Except.ok true ↔
        ∃ b, e ≤ b ∧ b ≤ cur ∧ p.chunkIndex b ≠ cIdx ∧
          (∀ j, e ≤ j → j < b → p.chunkIndex j = cIdx) ∧
          (∀ j, e ≤ j → j < b → j + d.getD (p.cellIndex v j) 0 < t)) := by
  intro fuel
  induction fuel with
  | zero =>
    intro e d hf hlen
    show (Except.ok (decide (p.chunkIndex e ≠ cIdx ∧ e ≤ cur)) :
      Except String Bool) = Except.ok true ↔ _
    constructor
    · intro hok
      have hprop := of_decide_eq_true (Except.ok.inj hok)
      exact absurd hprop.2 (by omega)
    · rintro ⟨b, hb1, hb2, _, _, _⟩
      exact absurd (le_trans hb1 hb2) (by omega)
  | succ f ih =>
    intro e d hf hlen
    rw [maxUpdateLoop_eq]
    rcases hstep : maxUpdateStep p cIdx v t cur e d with r | d'
    · show r.2 = Except.ok true ↔ _
      rcases maxUpdateStep_inl_cases p cIdx v t cur e d r hstep with
        ⟨hng, hr2⟩ | ⟨hg, msg, hr2⟩ | ⟨hg, _, hnlt, hr2⟩
      · rw [hr2]
        constructor
        · intro hok
          have hprop := of_decide_eq_true (Except.ok.inj hok)
          exact ⟨e, Nat.le_refl _, hprop.2, hprop.1,
            fun j h1 h2 => absurd h1 (by omega), fun j h1 h2 => absurd h1 (by omega)⟩
        · rintro ⟨b, hbe, hbc, hbne, hjall, hjcond⟩
          rcases Nat.lt_or_ge e b with hblt | hbge
          · have hce := hjall e (Nat.le_refl _) hblt
            exact absurd ⟨hce, by omega⟩ hng
          · have hbe' : b = e := by omega
            subst hbe'
            rw [decide_eq_true (show p.chunkIndex b ≠ cIdx ∧ b ≤ cur from ⟨hbne, hbc⟩)]
      · rw [hr2]
        constructor
        · intro hok
          exact Except.noConfusion hok
        · rintro ⟨b, hbe, hbc, hbne, hjall, hjcond⟩
          rcases Nat.lt_or_ge e b with hblt | hbge
          · have hj := hjcond e (Nat.le_refl _) hblt
            have heq := maxUpdateStep_eq_inr p cIdx v t cur e d hg.1 hg.2 hlen hj
            rw [hstep] at heq
            exact Sum.noConfusion heq
          · have hbe' : b = e := by omega
            subst hbe'
            exact absurd hg.1 hbne
      · rw [hr2]
        constructor
        · intro hok
          cases Except.ok.inj hok
        · rintro ⟨b, hbe, hbc, hbne, hjall, hjcond⟩
          rcases Nat.lt_or_ge e b with hblt | hbge
          · have hj := hjcond e (Nat.le_refl _) hblt
            exact absurd hj hnlt
          · have hbe' : b = e := by omega
            subst hbe'
            exact absurd hg.1 hbne
    · obtain ⟨hg, hcur, _, hlt, hd'⟩ := maxUpdateStep_inr p cIdx v t cur e d d' hstep
      show (maxUpdateLoop p cIdx v t cur f (e + 1) d').2 = Except.ok true ↔ _
      rw [ih (e + 1) d' (by omega) (by rw [hd', List.length_set]; exact hlen)]
      constructor
      · rintro ⟨b, hbe, hbc, hbne, hjall, hjcond⟩
        refine ⟨b, by omega, hbc, hbne, ?_, ?_⟩
        · intro j h1 h2
          by_cases hj : j = e
          · rw [hj]; exact hg
          · exact hjall j (by omega) h2
        · intro j h1 h2
          by_cases hj : j = e
          · subst hj
            exact hlt
          · have hc := hjcond j (by omega) h2
            have hne : p.cellIndex v e ≠ p.cellIndex v j := by
              refine cellIndex_ne_of_run p cIdx v hC hH (show e < j by omega) ?_
              intro x hx1 hx2
              by_cases hx : x = e
              · rw [hx]; exact hg
              · exact hjall x (by omega) (by omega)
            have hgd : d'.getD (p.cellIndex v j) 0 = d.getD (p.cellIndex v j) 0 := by
              rw [hd']
              exact getD_set_ne d _ _ _ hne
            rw [← hgd]
            exact hc
      · rintro ⟨b, hbe, hbc, hbne, hjall, hjcond⟩
        have hbe' : e + 1 ≤ b := by
          rcases Nat.lt_or_ge e b with h | h
          · omega
          · have hb1 : b = e := by omega
            subst hb1
            exact absurd hg hbne
        refine ⟨b, hbe', hbc, hbne, fun j h1 h2 => hjall j (by omega) h2, ?_⟩
        intro j h1 h2
        have hc := hjcond j (by omega) h2
        have hne : p.cellIndex v e ≠ p.cellIndex v j := by
          refine cellIndex_ne_of_run p cIdx v hC hH (show e < j by omega) ?_
          intro x hx1 hx2
          by_cases hx : x = e
          · rw [hx]; exact hg
          · exact hjall x (by omega) (by omega)
        have hgd : d'.getD (p.cellIndex v j) 0 = d.getD (p.cellIndex v j) 0 := by
          rw [hd']
          exact getD_set_ne d _ _ _ hne
        rw [hgd]
        exact hc

/-- **C1.** Multi-chunk `Update` (chunk_size 2, validator_chunk_size 3,
history_length 4): updating an empty Min chunk at chunk index 1 with
target 3 for validator 0 reports `keepGoing = true` and leaves validator
0's slots `[1, 0]`; continuing into chunk 0 with start epoch 1 reports
`keepGoing = false` and leaves slots `[3, 2]` (and the mirrored Max walk's
two calls). In general `keepGoing` is true exactly when the write walk
reached the chunk boundary without stopping early — every epoch strictly
between the boundary `b` and the start lies in the chunk and is written —
and earlier epochs in the adjacent chunk remain to be processed (the
boundary is above the retention floor for Min, at or below the current
epoch for Max). -/
theorem c1_update_multi_chunk_keep_going (p : Parameters) (cIdx cur v s t : Nat)
    (d : List Nat) (hC : 0 < p.chunkSize) (hH : p.chunkSize < p.historyLength)
    (hlen : d.length = p.chunkSize * p.validatorChunkSize) :
    minUpdate ⟨2, 3, 4⟩ 1 3 0 3 3 (emptyMinSpanChunksSlice ⟨2, 3, 4⟩) =
      ([1, 0, 65535, 65535, 65535, 65535], Except.ok true) ∧
    minUpdate ⟨2, 3, 4⟩ 0 3 0 1 3 (emptyMinSpanChunksSlice ⟨2, 3, 4⟩) =
      ([3, 2, 65535, 65535, 65535, 65535], Except.ok false) ∧
    maxUpdate ⟨2, 3, 4⟩ 0 3 0 0 3 (emptyMaxSpanChunksSlice ⟨2, 3, 4⟩) =
      ([3, 2, 0, 0, 0, 0], Except.ok true) ∧
    maxUpdate ⟨2, 3, 4⟩ 1 3 0 2 3 (emptyMaxSpanChunksSlice ⟨2, 3, 4⟩) =
      ([1, 0, 0, 0, 0, 0], Except.ok false) ∧
    ((minUpdate p cIdx cur v s t d).2 = Except.ok true ↔
      ∃ b, b ≤ s ∧ minEpochFor p cur ≤ b ∧ p.chunkIndex b ≠ cIdx ∧
        (∀ j, b < j → j ≤ s → p.chunkIndex j = cIdx) ∧
        (∀ j, b < j → j ≤ s → j ≤ t ∧ t < j + d.getD (p.cellIndex v j) 0)) ∧
    ((maxUpdate p cIdx cur v s t d).2 = Except.ok true ↔
      ∃ b, s ≤ b ∧ b ≤ cur ∧ p.chunkIndex b ≠ cIdx ∧
        (∀ j, s ≤ j → j < b → p.chunkIndex j = cIdx) ∧
        (∀ j, s ≤ j → j < b → j + d.getD (p.cellIndex v j) 0 < t)) := by
  refine ⟨by decide, by decide, by decide, by decide, ?_, ?_⟩
  · unfold minUpdate
    exact min_keep_going_iff p cIdx v t (minEpochFor p cur) hC hH s d hlen
  · unfold maxUpdate
    exact max_keep_going_iff p cIdx v t cur hC hH (cur + 1 - s) s d (by omega) hlen

/-- Witness for C1: the `keepGoing = true` characterisation instantiated at
the first call of the Min multi-chunk scenario. -/
theorem c1_update_multi_chunk_keep_going_witness :
    ∃ b, b ≤ 3 ∧ minEpochFor ⟨2, 3, 4⟩ 3 ≤ b ∧
      Parameters.chunkIndex ⟨2, 3, 4⟩ b ≠ 1 ∧
      (∀ j, b < j → j ≤ 3 → Parameters.chunkIndex ⟨2, 3, 4⟩ j = 1) ∧
      (∀ j, b < j → j ≤ 3 → j ≤ 3 ∧ 3 < j +
        (emptyMinSpanChunksSlice ⟨2, 3, 4⟩).getD
          (Parameters.cellIndex ⟨2, 3, 4⟩ 0 j) 0) :=
  (c1_update_multi_chunk_keep_going ⟨2, 3, 4⟩ 1 3 0 3 3
    (emptyMinSpanChunksSlice ⟨2, 3, 4⟩) (by decide) (by decide)
    (by decide)).2.2.2.2.1.mp (by decide)

/-- **C3.** `Update` is monotone and idempotent under re-application: a min
`Update` never increases any previously-written slot, a max `Update` never
decreases one, and applying either `Update` twice with the same arguments
leaves the chunk in the same state as applying it once. -/
theorem c3_update_monotone_idempotent (p : Parameters) (cIdx cur v s t : Nat)
    (d : List Nat) (hC : 0 < p.chunkSize) (hK : 0 < p.validatorChunkSize)
    (hH : p.chunkSize < p.historyLength) (ht : t < s + 65536) :
    (∀ i, ((minUpdate p cIdx cur v s t d).1).getD i 0 ≤ d.getD i 0) ∧
    (∀ i, d.getD i 0 ≤ ((maxUpdate p cIdx cur v s t d).1).getD i 0) ∧
    (minUpdate p cIdx cur v s t ((minUpdate p cIdx cur v s t d).1)).1 =
      (minUpdate p cIdx cur v s t d).1 ∧
    (maxUpdate p cIdx cur v s t ((maxUpdate p cIdx cur v s t d).1)).1 =
      (maxUpdate p cIdx cur v s t d).1 := by
  refine ⟨?_, ?_, min_update_idem p cIdx cur v s t d hC hK hH ht,
    max_update_idem p cIdx cur v s t d hC hK hH ht⟩
  · intro i
    unfold minUpdate
    exact min_loop_monotone p cIdx v t (minEpochFor p cur) s d i
  · intro i
    unfold maxUpdate
    exact max_loop_monotone p cIdx v t cur (cur + 1 - s) s d (by omega) i

/-- Witness for C3 at the multi-chunk test's parameters and inputs. -/
theorem c3_update_monotone_idempotent_witness :
    ((minUpdate ⟨2, 3, 4⟩ 1 3 0 3 3
        (emptyMinSpanChunksSlice ⟨2, 3, 4⟩)).1).getD 0 0 ≤
      (emptyMinSpanChunksSlice ⟨2, 3, 4⟩).getD 0 0 ∧
    (emptyMinSpanChunksSlice ⟨2, 3, 4⟩).getD 0 0 ≤
      ((maxUpdate ⟨2, 3, 4⟩ 1 3 0 3 3 (emptyMinSpanChunksSlice ⟨2, 3, 4⟩)).1).getD 0 0 ∧
    (minUpdate ⟨2, 3, 4⟩ 1 3 0 3 3
        ((minUpdate ⟨2, 3, 4⟩ 1 3 0 3 3 (emptyMinSpanChunksSlice ⟨2, 3, 4⟩)).1)).1 =
      (minUpdate ⟨2, 3, 4⟩ 1 3 0 3 3 (emptyMinSpanChunksSlice ⟨2, 3, 4⟩)).1 ∧
    (maxUpdate ⟨2, 3, 4⟩ 1 3 0 3 3
        ((maxUpdate ⟨2, 3, 4⟩ 1 3 0 3 3 (emptyMinSpanChunksSlice ⟨2, 3, 4⟩)).1)).1 =
      (maxUpdate ⟨2, 3, 4⟩ 1 3 0 3 3 (emptyMinSpanChunksSlice ⟨2, 3, 4⟩)).1 := by
  have h := c3_update_monotone_idempotent ⟨2, 3, 4⟩ 1 3 0 3 3
    (emptyMinSpanChunksSlice ⟨2, 3, 4⟩) (by decide) (by decide) (by decide) (by decide)
  exact ⟨h.1 0, h.2.1 0, h.2.2.1, h.2.2.2⟩

/-- **C9.** InclusionLists cache seen-twice invariant: for every
`(slot, validator index)` pair, the first `Add` stores that validator's
transactions; a second `Add` for the same pair marks the entry seen-twice
and clears its stored transactions; every subsequent `Add` for that pair
leaves the cache unchanged. Consequently `Get(slot)` never returns
transactions from a validator marked seen-twice (on states satisfying the
reachable-state invariant, which the empty cache satisfies and `Add`
preserves), and `SeenTwice(slot, idx)` returns `true` exactly for entries
marked seen-twice (`false` for unknown slots or validators). -/
theorem c9_inclusion_lists_seen_twice_invariant :
    (∀ (st : ILState) (slot v : Nat) (txs : List Tx),
      InclusionLists.lookupEntry st slot v = none →
      InclusionLists.lookupEntry (InclusionLists.add st slot v txs) slot v =
        some ⟨some txs, false⟩) ∧
    (∀ (st : ILState) (slot v : Nat) (txs l : List Tx),
      InclusionLists.lookupEntry st slot v = some ⟨some l, false⟩ →
      InclusionLists.lookupEntry (InclusionLists.add st slot v txs) slot v =
        some ⟨none, true⟩) ∧
    (∀ (st : ILState) (slot v : Nat) (txs : List Tx) (e : ILEntry),
      InclusionLists.lookupEntry st slot v = some e → e.seenTwice = true →
      InclusionLists.add st slot v txs = st) ∧
    InclusionLists.inv InclusionLists.new ∧
    (∀ (st : ILState) (slot v : Nat) (txs : List Tx),
      InclusionLists.inv st → InclusionLists.inv (InclusionLists.add st slot v txs)) ∧
    (∀ (h : Tx → List Nat) (st : ILState) (slot : Nat) (tx : Tx),
      InclusionLists.inv st → tx ∈ InclusionLists.get h st slot →
      ∃ sm, assocFind st slot = some sm ∧
        ∃ ve ∈ sm, ve.2.seenTwice = false ∧ ∃ l, ve.2.txs = some l ∧ tx ∈ l) ∧
    (∀ (st : ILState) (slot v : Nat),
      InclusionLists.seenTwice st slot v = true ↔
      ∃ e, InclusionLists.lookupEntry st slot v = some e ∧ e.seenTwice = true) := by
  refine ⟨?_, ?_, ?_, ?_, ?_, ?_, ?_⟩
  · -- first add stores the transactions
    intro st slot v txs h
    unfold InclusionLists.lookupEntry at h
    unfold InclusionLists.add InclusionLists.lookupEntry
    rcases hs : assocFind st slot with _ | m
    · simp only [hs] at h ⊢
      simp [ILEntry.zero, assocFind, assocFind_assocSet_self]
    · simp only [hs] at h ⊢
      simp [h, ILEntry.zero, assocFind_assocSet_self]
  · -- second add marks seen-twice and clears
    intro st slot v txs l h
    unfold InclusionLists.lookupEntry at h
    unfold InclusionLists.add InclusionLists.lookupEntry
    rcases hs : assocFind st slot with _ | m
    · simp only [hs] at h
      exact Option.noConfusion h
    · simp only [hs] at h ⊢
      simp [h, assocFind_assocSet_self]
  · -- once seen-twice, add is a no-op
    intro st slot v txs e h hT
    unfold InclusionLists.lookupEntry at h
    unfold InclusionLists.add
    rcases hs : assocFind st slot with _ | m
    · simp only [hs] at h
      exact Option.noConfusion h
    · simp only [hs] at h
      simp [h, hT]
  · -- the empty cache satisfies the invariant
    intro sm hsm
    simp [InclusionLists.new] at hsm
  · -- add preserves the invariant
    intro st slot v txs hinv
    simp only [InclusionLists.add]
    by_cases hT :
        ((assocFind ((assocFind st slot).getD []) v).getD ILEntry.zero).seenTwice = true
    · rw [if_pos hT]
      exact hinv
    · rw [if_neg hT]
      intro sm hsm ve hve hveT
      rcases mem_assocSet _ _ _ _ hsm with h1 | h1
      · -- the updated slot map
        rw [h1] at hve
        simp only at hve
        rcases mem_assocSet _ _ _ _ hve with h3 | h3
        · -- the updated entry
          rw [h3] at hveT ⊢
          simp only at hveT ⊢
          by_cases hN :
              ((assocFind ((assocFind st slot).getD []) v).getD ILEntry.zero).txs.isNone = true
          · rw [if_pos hN] at hveT ⊢
            exact absurd hveT (by simpa using hT)
          · rw [if_neg hN] at hveT ⊢
        · -- an untouched entry of an existing slot map
          rcases hs : assocFind st slot with _ | m
          · rw [hs] at h3
            simp at h3
          · rw [hs] at h3
            simp only [Option.getD_some] at h3
            exact hinv (slot, m) (assocFind_mem st slot m hs) ve h3 hveT
      · exact hinv sm h1 ve hve hveT
  · -- get never returns transactions of a seen-twice entry
    intro h st slot tx hinv htx
    unfold InclusionLists.get at htx
    rcases hs : assocFind st slot with _ | sm <;> simp only [hs] at htx
    · simp at htx
    · have hmem := dedupTxs_subset h _ _ _ htx
      obtain ⟨ve, hve, htxv⟩ := List.mem_flatMap.mp hmem
      rcases hvt : ve.2.txs with _ | l <;> rw [hvt] at htxv
      · simp at htxv
      · refine ⟨sm, rfl, ve, hve, ?_, l, hvt, htxv⟩
        by_cases hT : ve.2.seenTwice = true
        · have := hinv (slot, sm) (assocFind_mem st slot sm hs) ve hve hT
          rw [hvt] at this
          exact Option.noConfusion this
        · exact Bool.not_eq_true _ ▸ hT
  · -- seenTwice holds exactly for marked entries
    intro st slot v
    unfold InclusionLists.seenTwice InclusionLists.lookupEntry
    rcases hs : assocFind st slot with _ | m <;> simp only [hs]
    · simp
    · rcases hv : assocFind m v with _ | e <;> simp only [hv]
      · simp
      · simp

/-- Witness for C9: the three `Add` transitions, invariant preservation,
`Get`, and `SeenTwice` applied on small concrete cache states. -/
theorem c9_inclusion_lists_seen_twice_invariant_witness :
    InclusionLists.lookupEntry (InclusionLists.add [] 1 2 [[5]]) 1 2 =
      some ⟨some [[5]], false⟩ ∧
    InclusionLists.lookupEntry
        (InclusionLists.add [(1, [(2, ⟨some [[5]], false⟩)])] 1 2 [[6]]) 1 2 =
      some ⟨none, true⟩ ∧
    InclusionLists.add [(1, [(2, ⟨none, true⟩)])] 1 2 [[7]] =
      [(1, [(2, ⟨none, true⟩)])] ∧
    InclusionLists.inv (InclusionLists.add [] 1 2 [[5]]) ∧
    (∃ sm, assocFind [(1, [(2, (⟨some [[5]], false⟩ : ILEntry))])] 1 = some sm ∧
      ∃ ve ∈ sm, ve.2.seenTwice = false ∧ ∃ l, ve.2.txs = some l ∧ [5] ∈ l) ∧
    (∃ e, InclusionLists.lookupEntry [(1, [(2, ⟨none, true⟩)])] 1 2 = some e ∧
      e.seenTwice = true) :=
  ⟨c9_inclusion_lists_seen_twice_invariant.1 [] 1 2 [[5]] (by decide),
   c9_inclusion_lists_seen_twice_invariant.2.1 [(1, [(2, ⟨some [[5]], false⟩)])] 1 2
     [[6]] [[5]] (by decide),
   c9_inclusion_lists_seen_twice_invariant.2.2.1 [(1, [(2, ⟨none, true⟩)])] 1 2 [[7]]
     ⟨none, true⟩ (by decide) (by decide),
   c9_inclusion_lists_seen_twice_invariant.2.2.2.2.1 [] 1 2 [[5]] (by decide),
   c9_inclusion_lists_seen_twice_invariant.2.2.2.2.2.1 (fun t => t)
     [(1, [(2, ⟨some [[5]], false⟩)])] 1 [5] (by decide) (by decide),
   (c9_inclusion_lists_seen_twice_invariant.2.2.2.2.2.2 [(1, [(2, ⟨none, true⟩)])] 1
     2).mp (by decide)⟩

/-- **C10.** `InclusionLists.Get` deduplication: for every slot, `Get`
returns each transaction at most once — no two returned transactions share
a hash, so byte-identical transactions appear at most once — and returns an
empty result for a slot with no entries. -/
theorem c10_inclusion_lists_get_dedup :
    (∀ (h : Tx → List Nat) (st : ILState) (slot : Nat),
      (InclusionLists.get h st slot).Pairwise (fun a b => h a ≠ h b)) ∧
    (∀ (h : Tx → List Nat) (st : ILState) (slot : Nat) (tx : Tx),
      (InclusionLists.get h st slot).count tx ≤ 1) ∧
    (∀ (h : Tx → List Nat) (st : ILState) (slot : Nat),
      assocFind st slot = none → InclusionLists.get h st slot = []) := by
  have hpw : ∀ (h : Tx → List Nat) (st : ILState) (slot : Nat),
      (InclusionLists.get h st slot).Pairwise (fun a b => h a ≠ h b) := by
    intro h st slot
    unfold InclusionLists.get
    rcases assocFind st slot with _ | sm
    · simp
    · exact (dedupTxs_fresh_pairwise h _ _).2
  refine ⟨hpw, ?_, ?_⟩
  · intro h st slot tx
    exact count_le_one_of_pairwise_hash h _ (hpw h st slot) tx
  · intro h st slot hs
    unfold InclusionLists.get
    rw [hs]

/-- Witness for C10: the empty-slot conjunct at a concrete state. -/
theorem c10_inclusion_lists_get_dedup_witness :
    InclusionLists.get (fun t => t) [(1, [(2, ⟨some [[5]], false⟩)])] 3 = [] :=
  c10_inclusion_lists_get_dedup.2.2 (fun t => t) [(1, [(2, ⟨some [[5]], false⟩)])] 3
    (by decide)

end Prysm
